import Mathlib

/-!
# CacheSimulator: the memory hierarchy of `src/memory.c`

A shallow embedding of the cache model of `src/memory.c` and the properties
of it that the specification states.

Modelling conventions.

* The three global `cache_t` objects and the file-level statics form one
  record, `memory_t`; a `cache_t*` argument is a `cache_ref` that names one
  of the three globals, which are the only caches the program ever passes.
* C `int` values are mathematical integers (`Int`): the hit and miss counters
  and the block ages are unbounded, signed overflow (undefined in C) is not
  modelled.  `unsigned int` values are naturals, and every place where the C
  code converts to or computes in `unsigned int` reduces modulo `2 ^ 32`
  explicitly.
* `instr_count` (an `unsigned long`) is an unbounded natural.
* The `double` quotients of the hit-ratio helpers are exact rationals.
* `int` fields used as flags (`valid`, `dirty`, `writeback`, `is_write`) stay
  integers and are tested against `0`, as in C.
* Undefined behaviour (division by zero, indexing outside an allocated
  array) makes a function return `none`.
* `cache_access` calls itself through `write_back_to_l2`; the recursion is
  bounded by a fuel argument, and running out of fuel returns `none`.  On the
  hierarchy that `memory_init` configures, fuel 4 always suffices
  (`cache_access_total`).
* The `data` payload of a block, `printf` output and allocation failure are
  not modelled.
* `memory_t.trace` is a ghost field: every invocation of `cache_access`
  appends one `access_t` record (target, address, access type, outcome of the
  lookup) to it.  No modelled code reads it.
-/

namespace CacheSim

/-! ## Data model -/

/-- Conversion of an `int` to `unsigned int` (32 bits). -/
def to_unsigned (x : Int) : Nat := (x % 4294967296).toNat

/-- The struct `block` of memory.c, without the `data` pointer. -/
structure block_t where
  tag : Nat
  valid : Int
  dirty : Int
  age : Int
deriving DecidableEq, Repr

/-- The struct `set`: the array `blocks`. -/
structure set_t where
  blocks : List block_t
deriving DecidableEq, Repr

/-- The struct `cache`. -/
structure cache_t where
  sets : List set_t
  blocksize : Int
  cachesize : Int
  numsets : Int
  writeback : Int
  associativity : Int
  hit : Int
  miss : Int
  read_hit : Int
  read_miss : Int
  write_hit : Int
  write_miss : Int
deriving DecidableEq, Repr

/-- The three global caches a `cache_t*` can point to. -/
inductive cache_ref where
  | l1_instruction_cache
  | l1_data_cache
  | l2_cache
deriving DecidableEq, Repr

/-- Ghost record of one invocation of `cache_access`: its arguments and
whether the lookup loop found the tag. -/
structure access_t where
  target : cache_ref
  address : Nat
  is_write : Int
  hit : Bool
deriving DecidableEq, Repr

/-- The global state of memory.c: the three caches, `instr_count`, the
static miss counters that the code reads (`l1i_hit`, `l1d_hit` and `l2_hit`
are never used), and the ghost trace of cache accesses. -/
structure memory_t where
  l1_instruction_cache : cache_t
  l1_data_cache : cache_t
  l2_cache : cache_t
  instr_count : Nat
  l1i_miss : Int
  l1d_miss : Int
  l2_miss : Int
  trace : List access_t
deriving DecidableEq, Repr

/-- Dereference a cache pointer. -/
def memory_t.get (m : memory_t) : cache_ref → cache_t
  | .l1_instruction_cache => m.l1_instruction_cache
  | .l1_data_cache => m.l1_data_cache
  | .l2_cache => m.l2_cache

/-- Store through a cache pointer. -/
def memory_t.put (m : memory_t) (ref : cache_ref) (c : cache_t) : memory_t :=
  match ref with
  | .l1_instruction_cache => { m with l1_instruction_cache := c }
  | .l1_data_cache => { m with l1_data_cache := c }
  | .l2_cache => { m with l2_cache := c }

/-- Append one record to the ghost trace. -/
def memory_t.log (m : memory_t) (a : access_t) : memory_t :=
  { m with trace := m.trace ++ [a] }

/-! ## Initialisation -/

/-- The function `block_init`: tag 0, invalid, clean, age -1. -/
def block_init : block_t :=
  { tag := 0, valid := 0, dirty := 0, age := -1 }

/-- The function `set_init`: `associativity` freshly initialised blocks. -/
def set_init (associativity : Int) : set_t :=
  { blocks := List.replicate associativity.toNat block_init }

/-- The function `cache_init`.  The division that computes `numsets` is
undefined for a zero divisor. -/
def cache_init (cachesize blocksize associativity writeback : Int) : Option cache_t :=
  if associativity * blocksize = 0 then none
  else
    let numsets := Int.tdiv cachesize (associativity * blocksize)
    some
      { sets := List.replicate numsets.toNat (set_init associativity)
        blocksize := blocksize
        cachesize := cachesize
        numsets := numsets
        writeback := writeback
        associativity := associativity
        hit := 0
        miss := 0
        read_hit := 0
        read_miss := 0
        write_hit := 0
        write_miss := 0 }

/-! ## Address decoding -/

/-- The first three lines of `cache_access`: `(block_offset, index, tag)`.
The three divisors are the `unsigned int` conversions of `blocksize`,
`numsets` and `blocksize * numsets`; a zero divisor is undefined. -/
def decode (cache : cache_t) (address : Nat) : Option (Nat × Nat × Nat) :=
  if to_unsigned cache.blocksize = 0 ∨ to_unsigned cache.numsets = 0
      ∨ to_unsigned (cache.blocksize * cache.numsets) = 0 then none
  else
    some (address &&& to_unsigned (cache.blocksize - 1),
          (address / to_unsigned cache.blocksize) % to_unsigned cache.numsets,
          address / to_unsigned (cache.blocksize * cache.numsets))

/-! ## Replacement -/

/-- The loop of `find_lru_block_index`: `n` iterations left, at index `i`. -/
def find_lru_loop (blocks : List block_t) : Nat → Nat → Nat → Int → Option Nat
  | 0, _, lru_index, _ => some lru_index
  | n + 1, i, lru_index, max_age =>
    match blocks[i]? with
    | none => none
    | some block =>
      if block.age > max_age then find_lru_loop blocks n (i + 1) i block.age
      else find_lru_loop blocks n (i + 1) lru_index max_age

/-- The function `find_lru_block_index`: the first index of maximal age
among the blocks `0 .. associativity - 1`. -/
def find_lru_block_index (set : set_t) (associativity : Int) : Option Nat :=
  match set.blocks[0]? with
  | none => none
  | some block0 => find_lru_loop set.blocks (associativity - 1).toNat 1 0 block0.age

/-- The loop of `update_block_ages`: every valid block ages by one. -/
def age_loop : List block_t → Nat → Nat → Option (List block_t)
  | blocks, 0, _ => some blocks
  | blocks, n + 1, i =>
    match blocks[i]? with
    | none => none
    | some block =>
      age_loop (if block.valid ≠ 0 then blocks.set i { block with age := block.age + 1 }
                else blocks) n (i + 1)

/-- The function `update_block_ages`. -/
def update_block_ages (set : set_t) (associativity : Int) (accessed_index : Nat) :
    Option set_t :=
  match age_loop set.blocks associativity.toNat 0 with
  | none => none
  | some blocks =>
    match blocks[accessed_index]? with
    | none => none
    | some block => some { blocks := blocks.set accessed_index { block with age := 0 } }

/-! ## Lookup -/

/-- The lookup loop of `cache_access`: `some (some i)` for the first index
`i` whose block is valid and carries `tag`, `some none` when the loop ends
without a match. -/
def scan_blocks (blocks : List block_t) (tag : Nat) : Nat → Nat → Option (Option Nat)
  | 0, _ => some none
  | n + 1, i =>
    match blocks[i]? with
    | none => none
    | some block =>
      if block.valid ≠ 0 ∧ block.tag = tag then some (some i)
      else scan_blocks blocks tag n (i + 1)

/-- The address `write_back_to_l2` builds from a tag and a set index, in
`unsigned int` arithmetic with the shift amounts 15 and 6 of the source. -/
def write_back_address (tag index : Nat) : Nat :=
  ((tag <<< 15) % 4294967296) ||| ((index <<< 6) % 4294967296)

/-- The function `write_back_to_l2`; `access` is `cache_access` with the
remaining fuel.  Every caller passes `&l2_cache` as first argument. -/
def write_back_to_l2 (access : memory_t → cache_ref → Nat → Int → Option memory_t)
    (m : memory_t) (index : Nat) (block : block_t) : Option memory_t :=
  access m cache_ref.l2_cache (write_back_address block.tag index) 1

/-- The function `cache_access`. -/
def cache_access : Nat → memory_t → cache_ref → Nat → Int → Option memory_t
  | 0, _, _, _, _ => none
  | fuel + 1, m, ref, address, is_write =>
    let cache := m.get ref
    match decode cache address with
    | none => none
    | some (_, index, tag) =>
    match cache.sets[index]? with
    | none => none
    | some set =>
    match scan_blocks set.blocks tag cache.associativity.toNat 0 with
    | none => none
    | some (some i) =>
      -- a hit at block i
      match set.blocks[i]? with
      | none => none
      | some block =>
      let cache1 :=
        if is_write ≠ 0 then { cache with write_hit := cache.write_hit + 1 }
        else { cache with read_hit := cache.read_hit + 1 }
      let set1 : set_t :=
        if is_write ≠ 0 then { blocks := set.blocks.set i { block with dirty := 1 } }
        else set
      match update_block_ages set1 cache.associativity i with
      | none => none
      | some set2 =>
        some ((m.log ⟨ref, address, is_write, true⟩).put ref
          { cache1 with sets := cache1.sets.set index set2 })
    | some none =>
      -- a miss
      let cache1 :=
        if is_write ≠ 0 then { cache with write_miss := cache.write_miss + 1 }
        else { cache with read_miss := cache.read_miss + 1 }
      let cache2 := { cache1 with miss := cache1.miss + 1 }
      match find_lru_block_index set cache.associativity with
      | none => none
      | some lru_index =>
      match set.blocks[lru_index]? with
      | none => none
      | some victim =>
      let m1 := (m.log ⟨ref, address, is_write, false⟩).put ref cache2
      match (if victim.dirty ≠ 0 ∧ cache.writeback ≠ 0 then
               write_back_to_l2 (cache_access fuel) m1 index victim
             else some m1) with
      | none => none
      | some m2 =>
      -- the stores through set->blocks[lru_index] act on the current state
      let cache3 := m2.get ref
      match cache3.sets[index]? with
      | none => none
      | some set3 =>
      match set3.blocks[lru_index]? with
      | none => none
      | some block3 =>
      let set4 : set_t :=
        { blocks := set3.blocks.set lru_index
            { block3 with tag := tag, valid := 1, dirty := is_write } }
      match update_block_ages set4 cache3.associativity lru_index with
      | none => none
      | some set5 => some (m2.put ref { cache3 with sets := cache3.sets.set index set5 })

/-! ## The hierarchy controller -/

/-- The state at program start: zero-initialised globals. -/
def program_start : memory_t :=
  let zero : cache_t :=
    { sets := [], blocksize := 0, cachesize := 0, numsets := 0, writeback := 0,
      associativity := 0, hit := 0, miss := 0, read_hit := 0, read_miss := 0,
      write_hit := 0, write_miss := 0 }
  { l1_instruction_cache := zero, l1_data_cache := zero, l2_cache := zero,
    instr_count := 0, l1i_miss := 0, l1d_miss := 0, l2_miss := 0, trace := [] }

/-- The function `memory_init`, with the constants of memory.c: 32 KB
4-way write-through instruction L1, 32 KB 8-way write-back data L1, 256 KB
8-way write-back L2, 512-byte lines. -/
def memory_init (m : memory_t) : Option memory_t :=
  match cache_init (32 * 1024) 512 4 0, cache_init (32 * 1024) 512 8 1,
        cache_init (256 * 1024) 512 8 1 with
  | some l1i, some l1d, some l2 =>
    some { m with l1_instruction_cache := l1i, l1_data_cache := l1d, l2_cache := l2,
                  instr_count := 0 }
  | _, _, _ => none

/-- The function `memory_fetch`. -/
def memory_fetch (fuel : Nat) (m : memory_t) (address : Nat) : Option memory_t :=
  match cache_access fuel m cache_ref.l1_instruction_cache address 0 with
  | none => none
  | some m1 =>
    match (if m1.l1_instruction_cache.miss > m1.l1i_miss then
             cache_access fuel { m1 with l1i_miss := m1.l1_instruction_cache.miss }
               cache_ref.l2_cache address 0
           else some m1) with
    | none => none
    | some m2 => some { m2 with instr_count := m2.instr_count + 1 }

/-- The function `memory_read`. -/
def memory_read (fuel : Nat) (m : memory_t) (address : Nat) : Option memory_t :=
  match cache_access fuel m cache_ref.l1_data_cache address 0 with
  | none => none
  | some m1 =>
    match (if m1.l1_data_cache.miss > m1.l1d_miss then
             match cache_access fuel { m1 with l1d_miss := m1.l1_data_cache.miss }
                 cache_ref.l2_cache address 0 with
             | none => none
             | some m2 =>
               if m2.l2_cache.miss > m2.l2_miss then
                 some { m2 with l2_miss := m2.l2_cache.miss }
               else some m2
           else some m1) with
    | none => none
    | some m3 => some { m3 with instr_count := m3.instr_count + 1 }

/-- The function `memory_write`. -/
def memory_write (fuel : Nat) (m : memory_t) (address : Nat) : Option memory_t :=
  match cache_access fuel m cache_ref.l1_data_cache address 1 with
  | none => none
  | some m1 =>
    match (if m1.l1_data_cache.miss - m1.l1_data_cache.hit = 1 then
             cache_access fuel m1 cache_ref.l2_cache address 1
           else some m1) with
    | none => none
    | some m2 => some { m2 with instr_count := m2.instr_count + 1 }

/-- The state after `memory_init` at program start. -/
def initial_memory : memory_t := (memory_init program_start).getD program_start

/-- The initial hierarchy after one read of address 0 on the instruction L1. -/
def memory_after_read : memory_t :=
  (cache_access 1 initial_memory cache_ref.l1_instruction_cache 0 0).getD initial_memory

/-- One call of the hierarchy controller. -/
inductive op_t where
  | fetch (address : Nat)
  | read (address : Nat)
  | write (address : Nat)
deriving DecidableEq, Repr

/-- Execute one call. -/
def step (fuel : Nat) (m : memory_t) : op_t → Option memory_t
  | .fetch address => memory_fetch fuel m address
  | .read address => memory_read fuel m address
  | .write address => memory_write fuel m address

/-- Execute a sequence of calls, first to last. -/
def run (fuel : Nat) (m : memory_t) : List op_t → Option memory_t
  | [] => some m
  | op :: ops =>
    match step fuel m op with
    | none => none
    | some m1 => run fuel m1 ops

/-- The hierarchy after `memory_write(0x1000)` and `memory_read(0x2000)`: the
read evicted the written block from the data L1, and its write-back left a
dirty block of tag 1 in block 0 of set 0 of L2. -/
def memory_with_dirty_l2 : memory_t :=
  (run 4 initial_memory [op_t.write 4096, op_t.read 8192]).getD initial_memory

/-- A sequence of `cache_access` calls on one cache: `(address, is_write)`. -/
def access_all (fuel : Nat) (m : memory_t) (ref : cache_ref) :
    List (Nat × Int) → Option memory_t
  | [] => some m
  | (address, is_write) :: rest =>
    match cache_access fuel m ref address is_write with
    | none => none
    | some m1 => access_all fuel m1 ref rest

/-! ## Statistics -/

/-- The quotient `(double)x / (double)y` of two `int`s, as the exact rational
quotient: the conversions are exact for 32-bit values, the rounding of the
quotient to a `double` is not modelled.  `none` stands for a zero divisor. -/
def double_div (x y : Int) : Option ℚ :=
  if y = 0 then none else some ((x : ℚ) / (y : ℚ))

/-- The function `calculate_combined_hit_ratio`. -/
def calculate_combined_hit_ratio (cache : cache_t) : Option ℚ :=
  let total_hits := cache.read_hit + cache.write_hit
  let total_accesses := total_hits + cache.read_miss + cache.write_miss
  if total_accesses = 0 then some 0 else double_div total_hits total_accesses

/-- The function `calculate_read_hit_ratio`. -/
def calculate_read_hit_ratio (cache : cache_t) : Option ℚ :=
  let total_read_accesses := cache.read_hit + cache.read_miss
  if total_read_accesses = 0 then some 0 else double_div cache.read_hit total_read_accesses

/-- The function `calculate_write_hit_ratio`. -/
def calculate_write_hit_ratio (cache : cache_t) : Option ℚ :=
  let total_write_accesses := cache.write_hit + cache.write_miss
  if total_write_accesses = 0 then some 0 else double_div cache.write_hit total_write_accesses

/-- The cache that `cache_init` makes of the global `l1_instruction_cache`
at program start, the other two globals left as they are. -/
def lone_cache (cachesize blocksize associativity writeback : Int) : Option memory_t :=
  (cache_init cachesize blocksize associativity writeback).map
    (fun c => program_start.put cache_ref.l1_instruction_cache c)

/-! ## Specification vocabulary -/

/-- The lookup of `cache_access` alone: decode, select the set, run the loop.
`some none` is a miss, `some (some i)` a hit at block `i`. -/
def cache_lookup (cache : cache_t) (address : Nat) : Option (Option Nat) :=
  match decode cache address with
  | none => none
  | some (_, index, tag) =>
    match cache.sets[index]? with
    | none => none
    | some set => scan_blocks set.blocks tag cache.associativity.toNat 0

/-- A block with its age forgotten. -/
def erase_age (b : block_t) : block_t := { b with age := 0 }

/-- Geometry and array sizes of two cache states agree. -/
def same_shape (c c' : cache_t) : Prop :=
  c'.blocksize = c.blocksize ∧ c'.numsets = c.numsets ∧
  c'.associativity = c.associativity ∧ c'.writeback = c.writeback ∧
  c'.cachesize = c.cachesize ∧
  c'.sets.map (fun s => s.blocks.length) = c.sets.map (fun s => s.blocks.length)

/-- Every set holds exactly `associativity` blocks, as `set_init` allocates. -/
def shape_ok (c : cache_t) : Prop :=
  ∀ s ∈ c.sets, s.blocks.length = c.associativity.toNat

/-- The states reachable from initialisation: all three caches come from
`cache_init` (any geometry), then any number of `cache_access` calls on any of
them, the statics taking any values in between. -/
inductive reachable : memory_t → Prop where
  | init (m : memory_t) (s1 b1 a1 w1 s2 b2 a2 w2 s3 b3 a3 w3 : Int)
      (h1 : cache_init s1 b1 a1 w1 = some m.l1_instruction_cache)
      (h2 : cache_init s2 b2 a2 w2 = some m.l1_data_cache)
      (h3 : cache_init s3 b3 a3 w3 = some m.l2_cache) : reachable m
  | access (fuel : Nat) (m m' : memory_t) (ref : cache_ref) (address : Nat) (is_write : Int)
      (h : reachable m) (hstep : cache_access fuel m ref address is_write = some m') :
      reachable m'
  | statics (m : memory_t) (n : Nat) (i d l : Int) (h : reachable m) :
      reachable { m with instr_count := n, l1i_miss := i, l1d_miss := d, l2_miss := l }

/-- Number of trace records that target `ref` with the given access type
(`w`: a write) and outcome (`hit`). -/
def tally (tr : List access_t) (ref : cache_ref) (w hit : Bool) : Nat :=
  tr.countP (fun e => decide (e.target = ref) && (decide (e.is_write ≠ 0) == w) && (e.hit == hit))

/-- Number of trace records that target `ref`. -/
def accesses_to (tr : List access_t) (ref : cache_ref) : Nat :=
  tr.countP (fun e => decide (e.target = ref))

/-- The counter of a cache that `cache_access` increments for an access of
type `w` (a write) with outcome `hit`. -/
def counter (c : cache_t) (w hit : Bool) : Int :=
  match w, hit with
  | false, true => c.read_hit
  | false, false => c.read_miss
  | true, true => c.write_hit
  | true, false => c.write_miss

/-- Each of the four counters of each cache equals the number of recorded
invocations of its kind. -/
def accounted (m : memory_t) : Prop :=
  ∀ (ref : cache_ref) (w hit : Bool), counter (m.get ref) w hit = tally m.trace ref w hit

/-- No block of the cache is dirty. -/
def all_clean (c : cache_t) : Prop :=
  ∀ s ∈ c.sets, ∀ b ∈ s.blocks, b.dirty = 0

/-- The counter update of the hit path of `cache_access`. -/
def hit_counters (cache : cache_t) (is_write : Int) : cache_t :=
  if is_write ≠ 0 then { cache with write_hit := cache.write_hit + 1 }
  else { cache with read_hit := cache.read_hit + 1 }

/-- The counter updates of the miss path of `cache_access`. -/
def miss_counters (cache : cache_t) (is_write : Int) : cache_t :=
  { (if is_write ≠ 0 then { cache with write_miss := cache.write_miss + 1 }
     else { cache with read_miss := cache.read_miss + 1 }) with
    miss := cache.miss + 1 }

/-- The store `block->dirty = 1` of the hit path, done for a write only. -/
def mark_dirty (set : set_t) (i : Nat) (block : block_t) (is_write : Int) : set_t :=
  if is_write ≠ 0 then { blocks := set.blocks.set i { block with dirty := 1 } } else set

/-- The three stores of the miss path that install the new tag. -/
def install (set : set_t) (i : Nat) (block : block_t) (tag : Nat) (is_write : Int) : set_t :=
  { blocks := set.blocks.set i { block with tag := tag, valid := 1, dirty := is_write } }

/-- The address argument of a call. -/
def op_t.address : op_t → Nat
  | .fetch address => address
  | .read address => address
  | .write address => address

/-- Number of sets of each cache as `memory_init` configures it. -/
def configured_sets : cache_ref → Nat
  | .l1_instruction_cache => 16
  | .l1_data_cache => 8
  | .l2_cache => 64

/-- Associativity of each cache as `memory_init` configures it. -/
def configured_ways : cache_ref → Nat
  | .l1_instruction_cache => 4
  | .l1_data_cache => 8
  | .l2_cache => 8

/-- The three caches have the geometry and the array sizes that
`memory_init` gives them. -/
def configured (m : memory_t) : Prop :=
  ∀ r : cache_ref, same_shape (initial_memory.get r) (m.get r)

/-- In L2 every dirty block is valid and every tag is below `2 ^ 17`, the
number of tags of a 32-bit address space with 64 sets of 512-byte blocks. -/
def l2_blocks_ok (m : memory_t) : Prop :=
  ∀ s ∈ m.l2_cache.sets, ∀ b ∈ s.blocks, (b.dirty ≠ 0 → b.valid ≠ 0) ∧ b.tag < 131072

/-- Fuel that suffices for a `cache_access` on set `index` of L2: one unit
for the call and one for each nested write-back, which goes to set
`index / 8` and from set 0 hits the block being evicted. -/
def l2_fuel (index : Nat) : Nat :=
  if index = 0 then 2 else if index < 8 then 3 else 4

/-- Every block of the set but block 0 is as `block_init` left it. -/
def tail_init (blocks : List block_t) : Prop :=
  ∀ k b, 1 ≤ k → blocks[k]? = some b → b = block_init

/-- Only block 0 of the set has ever been used: the other blocks are as
`block_init` left them, and the age of block 0 is at least -1. -/
def slot0_set (set : set_t) : Prop :=
  tail_init set.blocks ∧ ∀ b, set.blocks[0]? = some b → -1 ≤ b.age

/-- Only block 0 of any set of the cache has ever been used. -/
def slot0_only (c : cache_t) : Prop :=
  ∀ s ∈ c.sets, slot0_set s

/-- In the cache every dirty block is valid. -/
def dirty_valid (c : cache_t) : Prop :=
  ∀ s ∈ c.sets, ∀ b ∈ s.blocks, b.dirty ≠ 0 → b.valid ≠ 0

/-- The sum of the four access counters of a cache. -/
def counter_total (c : cache_t) : Int :=
  c.read_hit + c.read_miss + c.write_hit + c.write_miss

/-! ## Basic facts about the state record -/

@[simp] theorem get_put_same (m : memory_t) (ref : cache_ref) (c : cache_t) :
    (m.put ref c).get ref = c := by
  cases ref <;> rfl

theorem get_put_other (m : memory_t) (ref r : cache_ref) (c : cache_t) (h : r ≠ ref) :
    (m.put ref c).get r = m.get r := by
  cases ref <;> cases r <;> first | rfl | exact absurd rfl h

@[simp] theorem get_log (m : memory_t) (e : access_t) (r : cache_ref) :
    (m.log e).get r = m.get r := by
  cases r <;> rfl

@[simp] theorem trace_put (m : memory_t) (ref : cache_ref) (c : cache_t) :
    (m.put ref c).trace = m.trace := by
  cases ref <;> rfl

@[simp] theorem trace_log (m : memory_t) (e : access_t) :
    (m.log e).trace = m.trace ++ [e] := rfl

theorem same_shape_refl (c : cache_t) : same_shape c c :=
  ⟨rfl, rfl, rfl, rfl, rfl, rfl⟩

theorem same_shape_trans {a b c : cache_t} (h1 : same_shape a b) (h2 : same_shape b c) :
    same_shape a c := by
  obtain ⟨p1, p2, p3, p4, p5, p6⟩ := h1
  obtain ⟨q1, q2, q3, q4, q5, q6⟩ := h2
  exact ⟨q1.trans p1, q2.trans p2, q3.trans p3, q4.trans p4, q5.trans p5, q6.trans p6⟩

/-! ## The loops -/

theorem map_set_same {α β : Type} (f : α → β) (xs : List α) (i : Nat) (b b' : α)
    (h : xs[i]? = some b) (hb : f b' = f b) : (xs.set i b').map f = xs.map f := by
  apply List.ext_getElem?
  intro k
  simp only [List.getElem?_map, List.getElem?_set]
  by_cases hik : i = k
  · subst hik
    have hlt : i < xs.length := by
      by_contra hc
      rw [List.getElem?_eq_none (Nat.le_of_not_lt hc)] at h
      exact Option.noConfusion h
    simp [hlt, h, hb]
  · simp [hik]

theorem map_set_erase_age (blocks : List block_t) (i : Nat) (b b' : block_t)
    (h : blocks[i]? = some b) (hb : erase_age b' = erase_age b) :
    (blocks.set i b').map erase_age = blocks.map erase_age :=
  map_set_same erase_age blocks i b b' h hb

theorem age_loop_erase (n : Nat) : ∀ (blocks : List block_t) (i : Nat) (blocks' : List block_t),
    age_loop blocks n i = some blocks' → blocks'.map erase_age = blocks.map erase_age := by
  induction n with
  | zero =>
    intro blocks i blocks' h
    simp only [age_loop, Option.some.injEq] at h
    rw [h]
  | succ n ih =>
    intro blocks i blocks' h
    simp only [age_loop] at h
    cases hb : blocks[i]? with
    | none => rw [hb] at h; exact Option.noConfusion h
    | some b =>
      rw [hb] at h
      have := ih _ _ _ h
      rw [this]
      split
      · exact map_set_erase_age blocks i b _ hb rfl
      · rfl

theorem age_loop_total (n : Nat) : ∀ (blocks : List block_t) (i : Nat),
    i + n ≤ blocks.length → ∃ blocks', age_loop blocks n i = some blocks' := by
  induction n with
  | zero => intro blocks i _; exact ⟨blocks, rfl⟩
  | succ n ih =>
    intro blocks i h
    have hi : i < blocks.length := by omega
    simp only [age_loop, List.getElem?_eq_getElem hi]
    apply ih
    split
    · rw [List.length_set]; omega
    · omega

theorem update_block_ages_erase (set set' : set_t) (associativity : Int) (k : Nat)
    (h : update_block_ages set associativity k = some set') :
    set'.blocks.map erase_age = set.blocks.map erase_age := by
  unfold update_block_ages at h
  cases h1 : age_loop set.blocks associativity.toNat 0 with
  | none => rw [h1] at h; exact Option.noConfusion h
  | some blocks =>
    simp only [h1] at h
    cases h2 : blocks[k]? with
    | none => simp only [h2] at h; exact Option.noConfusion h
    | some b =>
      simp only [h2, Option.some.injEq] at h
      rw [← h]
      exact (map_set_erase_age blocks k b { b with age := 0 } h2 rfl).trans
        (age_loop_erase _ _ _ _ h1)

theorem update_block_ages_total (set : set_t) (associativity : Int) (k : Nat)
    (hlen : associativity.toNat ≤ set.blocks.length) (hk : k < set.blocks.length) :
    ∃ set', update_block_ages set associativity k = some set' := by
  obtain ⟨blocks, hb⟩ := age_loop_total associativity.toNat set.blocks 0 (by omega)
  have hl : blocks.length = set.blocks.length := by
    have := congrArg List.length (age_loop_erase _ _ _ _ hb)
    simpa using this
  unfold update_block_ages
  rw [hb]
  have hk' : k < blocks.length := by omega
  simp only [List.getElem?_eq_getElem hk']
  exact ⟨_, rfl⟩

theorem length_eq_of_erase {xs ys : List block_t}
    (h : xs.map erase_age = ys.map erase_age) : xs.length = ys.length := by
  have := congrArg List.length h
  simpa using this

theorem scan_blocks_congr (tag : Nat) (n : Nat) : ∀ (i : Nat) (xs ys : List block_t),
    xs.map erase_age = ys.map erase_age →
    scan_blocks xs tag n i = scan_blocks ys tag n i := by
  induction n with
  | zero => intro i xs ys _; rfl
  | succ n ih =>
    intro i xs ys h
    have hk : (xs[i]?).map erase_age = (ys[i]?).map erase_age := by
      rw [← List.getElem?_map, ← List.getElem?_map, h]
    simp only [scan_blocks]
    cases hx : xs[i]? with
    | none =>
      cases hy : ys[i]? with
      | none => rfl
      | some y => rw [hx, hy] at hk; exact Option.noConfusion hk
    | some x =>
      cases hy : ys[i]? with
      | none => rw [hx, hy] at hk; exact Option.noConfusion hk
      | some y =>
        rw [hx, hy] at hk
        simp only [Option.map_some', Option.some.injEq, erase_age, block_t.mk.injEq] at hk
        obtain ⟨ht, hv, _, _⟩ := hk
        simp only [ht, hv]
        rw [ih (i + 1) xs ys h]

theorem scan_blocks_found (tag : Nat) (blocks : List block_t) (n : Nat) : ∀ (i j : Nat),
    scan_blocks blocks tag n i = some (some j) →
    ∃ b, blocks[j]? = some b ∧ b.valid ≠ 0 ∧ b.tag = tag := by
  induction n with
  | zero => intro i j h; simp [scan_blocks] at h
  | succ n ih =>
    intro i j h
    simp only [scan_blocks] at h
    cases hb : blocks[i]? with
    | none => rw [hb] at h; exact Option.noConfusion h
    | some b =>
      simp only [hb] at h
      by_cases hc : b.valid ≠ 0 ∧ b.tag = tag
      · rw [if_pos hc] at h
        simp only [Option.some.injEq] at h
        subst h
        exact ⟨b, hb, hc.1, hc.2⟩
      · rw [if_neg hc] at h
        exact ih _ _ h

theorem scan_blocks_hits (tag : Nat) (blocks : List block_t) (n : Nat) : ∀ (i k : Nat) (b : block_t),
    i + n ≤ blocks.length → i ≤ k → k < i + n → blocks[k]? = some b →
    b.valid ≠ 0 → b.tag = tag → ∃ j, scan_blocks blocks tag n i = some (some j) := by
  induction n with
  | zero => intro i k b _ h1 h2; omega
  | succ n ih =>
    intro i k b hlen h1 h2 hb hv ht
    have hi : i < blocks.length := by omega
    simp only [scan_blocks, List.getElem?_eq_getElem hi]
    by_cases hc : blocks[i].valid ≠ 0 ∧ blocks[i].tag = tag
    · rw [if_pos hc]; exact ⟨i, rfl⟩
    · rw [if_neg hc]
      have hne : i ≠ k := by
        intro hik
        subst hik
        rw [List.getElem?_eq_getElem hi] at hb
        simp only [Option.some.injEq] at hb
        rw [hb] at hc
        exact hc ⟨hv, ht⟩
      exact ih (i + 1) k b (by omega) (by omega) (by omega) hb hv ht


/-! ## One call of `cache_access`, case by case -/

theorem cache_access_inv (fuel : Nat) (m m' : memory_t) (ref : cache_ref) (address : Nat)
    (is_write : Int) (h : cache_access (fuel + 1) m ref address is_write = some m') :
    ∃ off index tag set,
      decode (m.get ref) address = some (off, index, tag) ∧
      (m.get ref).sets[index]? = some set ∧
      ((∃ i block set2,
          scan_blocks set.blocks tag (m.get ref).associativity.toNat 0 = some (some i) ∧
          set.blocks[i]? = some block ∧
          update_block_ages (mark_dirty set i block is_write) (m.get ref).associativity i
            = some set2 ∧
          m' = (m.log ⟨ref, address, is_write, true⟩).put ref
            { hit_counters (m.get ref) is_write with
              sets := (m.get ref).sets.set index set2 }) ∨
       (∃ lru victim m2 set3 block3 set5,
          scan_blocks set.blocks tag (m.get ref).associativity.toNat 0 = some none ∧
          find_lru_block_index set (m.get ref).associativity = some lru ∧
          set.blocks[lru]? = some victim ∧
          (if victim.dirty ≠ 0 ∧ (m.get ref).writeback ≠ 0 then
             cache_access fuel
               ((m.log ⟨ref, address, is_write, false⟩).put ref
                 (miss_counters (m.get ref) is_write))
               cache_ref.l2_cache (write_back_address victim.tag index) 1
           else some ((m.log ⟨ref, address, is_write, false⟩).put ref
                 (miss_counters (m.get ref) is_write))) = some m2 ∧
          (m2.get ref).sets[index]? = some set3 ∧
          set3.blocks[lru]? = some block3 ∧
          update_block_ages (install set3 lru block3 tag is_write) (m2.get ref).associativity lru
            = some set5 ∧
          m' = m2.put ref { m2.get ref with sets := (m2.get ref).sets.set index set5 })) := by
  simp only [cache_access] at h
  split at h
  · exact Option.noConfusion h
  · rename_i off index tag hdec
    split at h
    · exact Option.noConfusion h
    · rename_i set hset
      refine ⟨off, index, tag, set, hdec, hset, ?_⟩
      split at h
      · exact Option.noConfusion h
      · rename_i i hscan
        left
        split at h
        · exact Option.noConfusion h
        · rename_i block hblock
          split at h
          · exact Option.noConfusion h
          · rename_i set2 hupd
            simp only [Option.some.injEq] at h
            refine ⟨i, block, set2, hscan, hblock, ?_, ?_⟩
            · rw [← hupd]; unfold mark_dirty; split <;> rfl
            · rw [← h]; unfold hit_counters; split <;> rfl
      · rename_i hscan
        right
        split at h
        · exact Option.noConfusion h
        · rename_i lru hlru
          split at h
          · exact Option.noConfusion h
          · rename_i victim hvictim
            split at h
            · exact Option.noConfusion h
            · rename_i m2 hm2
              split at h
              · exact Option.noConfusion h
              · rename_i set3 hset3
                split at h
                · exact Option.noConfusion h
                · rename_i block3 hblock3
                  split at h
                  · exact Option.noConfusion h
                  · rename_i set5 hupd
                    simp only [Option.some.injEq] at h
                    refine ⟨lru, victim, m2, set3, block3, set5, hscan, hlru, hvictim, ?_,
                      hset3, hblock3, hupd, h.symm⟩
                    rw [← hm2]
                    unfold miss_counters write_back_to_l2
                    split <;> split <;> rfl

theorem cache_access_hit (fuel : Nat) (m : memory_t) (ref : cache_ref) (address : Nat)
    (is_write : Int) (off index tag i : Nat) (set set2 : set_t) (block : block_t)
    (hdec : decode (m.get ref) address = some (off, index, tag))
    (hset : (m.get ref).sets[index]? = some set)
    (hscan : scan_blocks set.blocks tag (m.get ref).associativity.toNat 0 = some (some i))
    (hblock : set.blocks[i]? = some block)
    (hupd : update_block_ages (mark_dirty set i block is_write) (m.get ref).associativity i
      = some set2) :
    cache_access (fuel + 1) m ref address is_write =
      some ((m.log ⟨ref, address, is_write, true⟩).put ref
        { hit_counters (m.get ref) is_write with
          sets := (m.get ref).sets.set index set2 }) := by
  unfold mark_dirty at hupd
  simp only [cache_access, hdec, hset, hscan, hblock]
  unfold hit_counters
  by_cases hw : is_write ≠ 0
  · simp only [if_pos hw] at hupd ⊢
    simp only [hupd]
  · simp only [if_neg hw] at hupd ⊢
    simp only [hupd]

/-! ## Geometry and array sizes never change -/

theorem hit_counters_shape (c : cache_t) (w : Int) (sets : List set_t)
    (h : sets.map (fun s => s.blocks.length) = c.sets.map (fun s => s.blocks.length)) :
    same_shape c { hit_counters c w with sets := sets } := by
  unfold hit_counters
  split <;> exact ⟨rfl, rfl, rfl, rfl, rfl, h⟩

theorem miss_counters_shape (c : cache_t) (w : Int) : same_shape c (miss_counters c w) := by
  unfold miss_counters
  split <;> exact ⟨rfl, rfl, rfl, rfl, rfl, rfl⟩

theorem mark_dirty_length (set : set_t) (i : Nat) (block : block_t) (w : Int) :
    (mark_dirty set i block w).blocks.length = set.blocks.length := by
  unfold mark_dirty
  split
  · exact List.length_set _ _ _
  · rfl

theorem update_block_ages_length (set set' : set_t) (associativity : Int) (k : Nat)
    (h : update_block_ages set associativity k = some set') :
    set'.blocks.length = set.blocks.length :=
  length_eq_of_erase (update_block_ages_erase set set' associativity k h)

theorem put_sets_shape (m : memory_t) (ref : cache_ref) (index : Nat) (s s' : set_t)
    (hs : (m.get ref).sets[index]? = some s) (hl : s'.blocks.length = s.blocks.length)
    (r : cache_ref) :
    same_shape (m.get r)
      ((m.put ref { m.get ref with sets := (m.get ref).sets.set index s' }).get r) := by
  by_cases hr : r = ref
  · subst hr
    rw [get_put_same]
    exact ⟨rfl, rfl, rfl, rfl, rfl,
      map_set_same (fun s => s.blocks.length) _ index s s' hs hl⟩
  · rw [get_put_other _ _ _ _ hr]
    exact same_shape_refl _

theorem cache_access_shape (fuel : Nat) : ∀ (m m' : memory_t) (ref : cache_ref) (address : Nat)
    (is_write : Int), cache_access fuel m ref address is_write = some m' →
    ∀ r, same_shape (m.get r) (m'.get r) := by
  induction fuel with
  | zero => intro m m' ref address is_write h; exact Option.noConfusion h
  | succ fuel ih =>
    intro m m' ref address is_write h r
    obtain ⟨off, index, tag, set, hdec, hset, hcase⟩ := cache_access_inv _ _ _ _ _ _ h
    rcases hcase with ⟨i, block, set2, hscan, hblock, hupd, hm'⟩ |
      ⟨lru, victim, m2, set3, block3, set5, hscan, hlru, hvictim, hm2, hset3, hblock3, hupd, hm'⟩
    · subst hm'
      by_cases hr : r = ref
      · subst hr
        rw [get_put_same]
        apply hit_counters_shape
        apply map_set_same (fun s => s.blocks.length) _ index set set2 hset
        rw [update_block_ages_length _ _ _ _ hupd, mark_dirty_length]
      · rw [get_put_other _ _ _ _ hr, get_log]
        exact same_shape_refl _
    · have h1 : same_shape (m.get r)
          (((m.log ⟨ref, address, is_write, false⟩).put ref
            (miss_counters (m.get ref) is_write)).get r) := by
        by_cases hr : r = ref
        · subst hr
          rw [get_put_same]
          exact miss_counters_shape _ _
        · rw [get_put_other _ _ _ _ hr, get_log]
          exact same_shape_refl _
      have h2 : same_shape (m.get r) (m2.get r) := by
        split at hm2
        · exact same_shape_trans h1 (ih _ _ _ _ _ hm2 r)
        · simp only [Option.some.injEq] at hm2
          rw [← hm2]
          exact h1
      subst hm'
      refine same_shape_trans h2 (put_sets_shape m2 ref index set3 set5 hset3 ?_ r)
      rw [update_block_ages_length _ _ _ _ hupd]
      exact List.length_set _ _ _

theorem shape_ok_of_same_shape {c c' : cache_t} (h : same_shape c c') (hc : shape_ok c) :
    shape_ok c' := by
  intro s hs
  obtain ⟨_, _, ha, _, _, hl⟩ := h
  have hmem : s.blocks.length ∈ c'.sets.map (fun s => s.blocks.length) :=
    List.mem_map.mpr ⟨s, hs, rfl⟩
  rw [hl] at hmem
  obtain ⟨s0, hs0, hlen⟩ := List.mem_map.mp hmem
  rw [ha, ← hlen]
  exact hc s0 hs0

theorem cache_init_shape_ok (cachesize blocksize associativity writeback : Int) (c : cache_t)
    (h : cache_init cachesize blocksize associativity writeback = some c) : shape_ok c := by
  unfold cache_init at h
  split at h
  · exact Option.noConfusion h
  · simp only [Option.some.injEq] at h
    subst h
    intro s hs
    have := List.eq_of_mem_replicate hs
    subst this
    simp [set_init]

theorem reachable_shape_ok (m : memory_t) (h : reachable m) : ∀ r, shape_ok (m.get r) := by
  induction h with
  | init m s1 b1 a1 w1 s2 b2 a2 w2 s3 b3 a3 w3 h1 h2 h3 =>
    intro r
    cases r
    · exact cache_init_shape_ok _ _ _ _ _ h1
    · exact cache_init_shape_ok _ _ _ _ _ h2
    · exact cache_init_shape_ok _ _ _ _ _ h3
  | access fuel m m' ref address is_write _ hstep ih =>
    intro r
    exact shape_ok_of_same_shape (cache_access_shape _ _ _ _ _ _ hstep r) (ih r)
  | statics m n i d l _ ih =>
    intro r
    cases r <;> first | exact ih cache_ref.l1_instruction_cache | exact ih cache_ref.l1_data_cache | exact ih cache_ref.l2_cache

theorem decode_same_shape {c c' : cache_t} (h : same_shape c c') (address : Nat) :
    decode c' address = decode c address := by
  obtain ⟨hb, hn, _, _, _, _⟩ := h
  unfold decode
  rw [hb, hn]

theorem getElem?_lt_length {α : Type} {xs : List α} {i : Nat} {x : α} (h : xs[i]? = some x) :
    i < xs.length := by
  by_contra hc
  rw [List.getElem?_eq_none (Nat.le_of_not_lt hc)] at h
  exact Option.noConfusion h

theorem hit_counters_fields (c : cache_t) (w : Int) (sets : List set_t) :
    ({ hit_counters c w with sets := sets } : cache_t).read_miss = c.read_miss ∧
    ({ hit_counters c w with sets := sets } : cache_t).write_miss = c.write_miss ∧
    ({ hit_counters c w with sets := sets } : cache_t).miss = c.miss ∧
    ({ hit_counters c w with sets := sets } : cache_t).read_hit
      = c.read_hit + (if w ≠ 0 then 0 else 1) ∧
    ({ hit_counters c w with sets := sets } : cache_t).write_hit
      = c.write_hit + (if w ≠ 0 then 1 else 0) := by
  unfold hit_counters
  by_cases hw : w ≠ 0
  · simp only [if_pos hw]; simp
  · simp only [if_neg hw]; simp


/-! ## The hierarchy controller, call by call -/

theorem step_preserves (Q : memory_t → Prop)
    (hstat : ∀ (m : memory_t) (n : Nat) (i d l : Int), Q m →
      Q { m with instr_count := n, l1i_miss := i, l1d_miss := d, l2_miss := l })
    (fuel : Nat) (op : op_t)
    (hacc : ∀ (m m' : memory_t) (ref : cache_ref) (w : Int), Q m →
      (ref = cache_ref.l1_instruction_cache → w = 0) →
      cache_access fuel m ref op.address w = some m' → Q m')
    (m m' : memory_t) (hm : Q m) (h : step fuel m op = some m') : Q m' := by
  cases op with
  | fetch address =>
    simp only [step, memory_fetch] at h
    split at h
    · exact Option.noConfusion h
    · rename_i m1 h1
      have q1 := hacc _ _ _ _ hm (fun _ => rfl) h1
      split at h
      · exact Option.noConfusion h
      · rename_i m2 h2
        simp only [Option.some.injEq] at h
        subst h
        have q2 : Q m2 := by
          split at h2
          · exact hacc _ _ _ _ (hstat m1 m1.instr_count _ m1.l1d_miss m1.l2_miss q1)
              (fun e => by cases e) h2
          · simp only [Option.some.injEq] at h2
            rw [← h2]; exact q1
        exact hstat m2 _ m2.l1i_miss m2.l1d_miss m2.l2_miss q2
  | read address =>
    simp only [step, memory_read] at h
    split at h
    · exact Option.noConfusion h
    · rename_i m1 h1
      have q1 := hacc _ _ _ _ hm (fun e => by cases e) h1
      split at h
      · exact Option.noConfusion h
      · rename_i m3 h3
        simp only [Option.some.injEq] at h
        subst h
        have q3 : Q m3 := by
          split at h3
          · split at h3
            · exact Option.noConfusion h3
            · rename_i m2 h2
              have q2 := hacc _ _ _ _
                (hstat m1 m1.instr_count m1.l1i_miss _ m1.l2_miss q1) (fun e => by cases e) h2
              split at h3
              · simp only [Option.some.injEq] at h3
                rw [← h3]
                exact hstat m2 m2.instr_count m2.l1i_miss m2.l1d_miss _ q2
              · simp only [Option.some.injEq] at h3
                rw [← h3]; exact q2
          · simp only [Option.some.injEq] at h3
            rw [← h3]; exact q1
        exact hstat m3 _ m3.l1i_miss m3.l1d_miss m3.l2_miss q3
  | write address =>
    simp only [step, memory_write] at h
    split at h
    · exact Option.noConfusion h
    · rename_i m1 h1
      have q1 := hacc _ _ _ _ hm (fun e => by cases e) h1
      split at h
      · exact Option.noConfusion h
      · rename_i m2 h2
        simp only [Option.some.injEq] at h
        subst h
        have q2 : Q m2 := by
          split at h2
          · exact hacc _ _ _ _ q1 (fun e => by cases e) h2
          · simp only [Option.some.injEq] at h2
            rw [← h2]; exact q1
        exact hstat m2 _ m2.l1i_miss m2.l1d_miss m2.l2_miss q2

theorem run_preserves (Q : memory_t → Prop)
    (hstat : ∀ (m : memory_t) (n : Nat) (i d l : Int), Q m →
      Q { m with instr_count := n, l1i_miss := i, l1d_miss := d, l2_miss := l })
    (fuel : Nat) (ops : List op_t)
    (hacc : ∀ op ∈ ops, ∀ (m m' : memory_t) (ref : cache_ref) (w : Int), Q m →
      (ref = cache_ref.l1_instruction_cache → w = 0) →
      cache_access fuel m ref op.address w = some m' → Q m') :
    ∀ (m m' : memory_t), Q m → run fuel m ops = some m' → Q m' := by
  induction ops with
  | nil =>
    intro m m' hm h
    simp only [run, Option.some.injEq] at h
    rw [← h]; exact hm
  | cons op ops ih =>
    intro m m' hm h
    simp only [run] at h
    split at h
    · exact Option.noConfusion h
    · rename_i m1 h1
      exact ih (fun o ho => hacc o (List.mem_cons_of_mem _ ho)) m1 m'
        (step_preserves Q hstat fuel op (hacc op (List.mem_cons_self _ _)) m m1 hm h1) h


/-! ## Counters and the trace -/

theorem tally_append_single (tr : List access_t) (e : access_t) (r : cache_ref) (w h : Bool) :
    tally (tr ++ [e]) r w h
      = tally tr r w h + (if e.target = r ∧ decide (e.is_write ≠ 0) = w ∧ e.hit = h then 1 else 0) := by
  unfold tally
  rw [List.countP_append, List.countP_cons, List.countP_nil]
  congr 1
  by_cases h1 : e.target = r <;> by_cases h2 : decide (e.is_write ≠ 0) = w <;>
    by_cases h3 : e.hit = h <;> simp [h1, h2, h3]

theorem counter_hit_counters (c : cache_t) (iw : Int) (sets : List set_t) (w h : Bool) :
    counter { hit_counters c iw with sets := sets } w h
      = counter c w h + (if decide (iw ≠ 0) = w ∧ true = h then 1 else 0) := by
  unfold hit_counters
  by_cases hw : iw ≠ 0 <;> cases w <;> cases h <;> simp [counter, hw]

theorem counter_miss_counters (c : cache_t) (iw : Int) (w h : Bool) :
    counter (miss_counters c iw) w h
      = counter c w h + (if decide (iw ≠ 0) = w ∧ false = h then 1 else 0) := by
  unfold miss_counters
  by_cases hw : iw ≠ 0 <;> cases w <;> cases h <;> simp [counter, hw]

theorem accounted_log_put (m : memory_t) (ref : cache_ref) (address : Nat) (iw : Int)
    (hit : Bool) (c' : cache_t) (hm : accounted m)
    (hc : ∀ w h, counter c' w h
      = counter (m.get ref) w h + (if decide (iw ≠ 0) = w ∧ hit = h then 1 else 0)) :
    accounted ((m.log ⟨ref, address, iw, hit⟩).put ref c') := by
  intro r w h
  rw [trace_put, trace_log, tally_append_single]
  by_cases hr : r = ref
  · subst hr
    rw [get_put_same, hc, hm]
    by_cases hx : decide (iw ≠ 0) = w ∧ hit = h
    · simp [hx]
    · simp [hx]
  · rw [get_put_other _ _ _ _ hr, get_log, hm]
    have : ¬ (ref = r) := fun e => hr e.symm
    simp [this]

theorem accounted_put_sets (m : memory_t) (ref : cache_ref) (sets : List set_t)
    (hm : accounted m) : accounted (m.put ref { m.get ref with sets := sets }) := by
  intro r w h
  rw [trace_put]
  by_cases hr : r = ref
  · subst hr
    rw [get_put_same, ← hm]
    cases w <;> cases h <;> rfl
  · rw [get_put_other _ _ _ _ hr, hm]

theorem cache_access_accounted (fuel : Nat) : ∀ (m m' : memory_t) (ref : cache_ref)
    (address : Nat) (is_write : Int), accounted m →
    cache_access fuel m ref address is_write = some m' → accounted m' := by
  induction fuel with
  | zero => intro m m' ref address is_write _ h; exact Option.noConfusion h
  | succ fuel ih =>
    intro m m' ref address is_write hm h
    obtain ⟨off, index, tag, set, hdec, hset, hcase⟩ := cache_access_inv _ _ _ _ _ _ h
    rcases hcase with ⟨i, block, set2, hscan, hblock, hupd, hm'⟩ |
      ⟨lru, victim, m2, set3, block3, set5, hscan, hlru, hvictim, hm2, hset3, hblock3, hupd, hm'⟩
    · subst hm'
      exact accounted_log_put m ref address is_write true _ hm
        (counter_hit_counters _ _ _)
    · have h1 := accounted_log_put m ref address is_write false _ hm
        (counter_miss_counters (m.get ref) is_write)
      have h2 : accounted m2 := by
        split at hm2
        · exact ih _ _ _ _ _ h1 hm2
        · simp only [Option.some.injEq] at hm2
          rw [← hm2]
          exact h1
      subst hm'
      exact accounted_put_sets m2 ref _ h2

theorem accounted_statics (m : memory_t) (n : Nat) (i d l : Int) (hm : accounted m) :
    accounted { m with instr_count := n, l1i_miss := i, l1d_miss := d, l2_miss := l } := by
  intro r w h
  have := hm r w h
  cases r <;> exact this

theorem memory_init_accounted (m0 : memory_t) (h : memory_init program_start = some m0) :
    accounted m0 := by
  unfold memory_init at h
  split at h
  · rename_i l1i l1d l2 h1 h2 h3
    simp only [Option.some.injEq] at h
    subst h
    unfold cache_init at h1 h2 h3
    simp only [Option.some.injEq] at h1 h2 h3
    split at h1
    · exact Option.noConfusion h1
    · split at h2
      · exact Option.noConfusion h2
      · split at h3
        · exact Option.noConfusion h3
        · simp only [Option.some.injEq] at h1 h2 h3
          subst h1 h2 h3
          intro r w h
          cases r <;> cases w <;> cases h <;> rfl
  · exact Option.noConfusion h

theorem tally_partition (tr : List access_t) (r : cache_ref) :
    tally tr r false true + tally tr r false false + tally tr r true true
      + tally tr r true false = accesses_to tr r := by
  induction tr with
  | nil => rfl
  | cons e tr ih =>
    unfold tally accesses_to at ih ⊢
    simp only [List.countP_cons]
    rw [← ih]
    by_cases h1 : e.target = r <;> by_cases h2 : e.is_write ≠ 0 <;> cases h3 : e.hit <;>
      simp [h1, h2, h3] <;> omega


/-! ## Unsigned conversion -/

theorem to_unsigned_natCast (n : Nat) (h : n < 4294967296) : to_unsigned (n : Int) = n := by
  unfold to_unsigned
  omega


/-! ## Dirty flags -/

theorem clean_of_erase {xs ys : List block_t} (h : xs.map erase_age = ys.map erase_age)
    (hy : ∀ b ∈ ys, b.dirty = 0) : ∀ b ∈ xs, b.dirty = 0 := by
  intro b hb
  have hmem : erase_age b ∈ ys.map erase_age := by
    rw [← h]; exact List.mem_map.mpr ⟨b, hb, rfl⟩
  obtain ⟨b0, hb0, he⟩ := List.mem_map.mp hmem
  have hd : (erase_age b0).dirty = (erase_age b).dirty := by rw [he]
  change b0.dirty = b.dirty at hd
  rw [← hd]
  exact hy b0 hb0

theorem all_clean_set (c c' : cache_t) (index : Nat) (s : set_t)
    (hsets : c'.sets = c.sets.set index s) (hc : all_clean c)
    (hs : ∀ b ∈ s.blocks, b.dirty = 0) : all_clean c' := by
  intro s' hs'
  rw [hsets] at hs'
  rcases List.mem_or_eq_of_mem_set hs' with hmem | heq
  · exact hc s' hmem
  · rw [heq]; exact hs

theorem read_access_clean (fuel : Nat) (m m' : memory_t) (ref : cache_ref) (address : Nat)
    (hc : all_clean (m.get ref)) (h : cache_access fuel m ref address 0 = some m') :
    all_clean (m'.get ref) := by
  cases fuel with
  | zero => exact Option.noConfusion h
  | succ fuel =>
    obtain ⟨off, index, tag, set, hdec, hset, hcase⟩ := cache_access_inv _ _ _ _ _ _ h
    have hsetc : ∀ b ∈ set.blocks, b.dirty = 0 := hc set (List.getElem?_mem hset)
    rcases hcase with ⟨i, block, set2, hscan, hblock, hupd, hm'⟩ |
      ⟨lru, victim, m2, set3, block3, set5, hscan, hlru, hvictim, hm2, hset3, hblock3, hupd, hm'⟩
    · subst hm'
      rw [get_put_same]
      refine all_clean_set (m.get ref) _ index set2 rfl hc ?_
      exact clean_of_erase (update_block_ages_erase _ _ _ _ hupd) hsetc
    · have hv : victim.dirty = 0 := hsetc victim (List.getElem?_mem hvictim)
      have hno : ¬ (victim.dirty ≠ 0 ∧ (m.get ref).writeback ≠ 0) := fun hx => hx.1 hv
      rw [if_neg hno] at hm2
      simp only [Option.some.injEq] at hm2
      have hget2 : (m2.get ref).sets = (m.get ref).sets := by
        rw [← hm2, get_put_same]
        unfold miss_counters
        split <;> rfl
      have hc2 : all_clean (m2.get ref) := by
        intro s hs
        rw [hget2] at hs
        exact hc s hs
      subst hm'
      rw [get_put_same]
      refine all_clean_set (m2.get ref) _ index set5 rfl hc2 ?_
      refine clean_of_erase (update_block_ages_erase _ _ _ _ hupd) ?_
      intro b hb
      rcases List.mem_or_eq_of_mem_set hb with hmem | heq
      · exact hc2 set3 (List.getElem?_mem hset3) b hmem
      · rw [heq]

theorem cache_init_all_clean (cachesize blocksize associativity writeback : Int) (c : cache_t)
    (h : cache_init cachesize blocksize associativity writeback = some c) : all_clean c := by
  unfold cache_init at h
  split at h
  · exact Option.noConfusion h
  · simp only [Option.some.injEq] at h
    subst h
    intro s hs b hb
    have := List.eq_of_mem_replicate hs
    subst this
    have := List.eq_of_mem_replicate hb
    subst this
    rfl


/-! ## Termination on the configured hierarchy -/

theorem memory_init_program_start : memory_init program_start = some initial_memory := by
  decide

theorem scan_blocks_total (tag : Nat) (blocks : List block_t) (n : Nat) : ∀ (i : Nat),
    i + n ≤ blocks.length → ∃ r, scan_blocks blocks tag n i = some r := by
  induction n with
  | zero => intro i _; exact ⟨none, rfl⟩
  | succ n ih =>
    intro i h
    have hi : i < blocks.length := by omega
    simp only [scan_blocks, List.getElem?_eq_getElem hi]
    split
    · exact ⟨_, rfl⟩
    · exact ih (i + 1) (by omega)

theorem find_lru_loop_total (blocks : List block_t) (n : Nat) : ∀ (i lru : Nat) (max_age : Int),
    i + n ≤ blocks.length → lru < blocks.length →
    ∃ r, find_lru_loop blocks n i lru max_age = some r ∧ r < blocks.length := by
  induction n with
  | zero => intro i lru max_age _ hl; exact ⟨lru, rfl, hl⟩
  | succ n ih =>
    intro i lru max_age h hl
    have hi : i < blocks.length := by omega
    simp only [find_lru_loop, List.getElem?_eq_getElem hi]
    split
    · exact ih (i + 1) i _ (by omega) hi
    · exact ih (i + 1) lru _ (by omega) hl

theorem find_lru_block_index_total (set : set_t) (assoc : Nat) (h0 : 0 < assoc)
    (hlen : set.blocks.length = assoc) :
    ∃ lru, find_lru_block_index set (assoc : Int) = some lru ∧ lru < set.blocks.length := by
  have h0' : 0 < set.blocks.length := by omega
  unfold find_lru_block_index
  simp only [List.getElem?_eq_getElem h0']
  exact find_lru_loop_total set.blocks _ 1 0 _ (by omega) h0'

theorem cache_access_miss (fuel : Nat) (m m2 : memory_t) (ref : cache_ref) (address : Nat)
    (is_write : Int) (off index tag lru : Nat) (set set3 set5 : set_t) (victim block3 : block_t)
    (hdec : decode (m.get ref) address = some (off, index, tag))
    (hset : (m.get ref).sets[index]? = some set)
    (hscan : scan_blocks set.blocks tag (m.get ref).associativity.toNat 0 = some none)
    (hlru : find_lru_block_index set (m.get ref).associativity = some lru)
    (hvictim : set.blocks[lru]? = some victim)
    (hm2 : (if victim.dirty ≠ 0 ∧ (m.get ref).writeback ≠ 0 then
             cache_access fuel
               ((m.log ⟨ref, address, is_write, false⟩).put ref
                 (miss_counters (m.get ref) is_write))
               cache_ref.l2_cache (write_back_address victim.tag index) 1
           else some ((m.log ⟨ref, address, is_write, false⟩).put ref
                 (miss_counters (m.get ref) is_write))) = some m2)
    (hset3 : (m2.get ref).sets[index]? = some set3)
    (hblock3 : set3.blocks[lru]? = some block3)
    (hupd : update_block_ages (install set3 lru block3 tag is_write)
      (m2.get ref).associativity lru = some set5) :
    cache_access (fuel + 1) m ref address is_write =
      some (m2.put ref { m2.get ref with sets := (m2.get ref).sets.set index set5 }) := by
  unfold install at hupd
  unfold miss_counters at hm2
  have hm2' : (if victim.dirty ≠ 0 ∧ (m.get ref).writeback ≠ 0 then
      write_back_to_l2 (cache_access fuel)
        ((m.log ⟨ref, address, is_write, false⟩).put ref
          { (if is_write ≠ 0 then
              { m.get ref with write_miss := (m.get ref).write_miss + 1 }
            else { m.get ref with read_miss := (m.get ref).read_miss + 1 }) with
            miss := (if is_write ≠ 0 then
              { m.get ref with write_miss := (m.get ref).write_miss + 1 }
            else { m.get ref with read_miss := (m.get ref).read_miss + 1 }).miss + 1 })
        index victim
      else some ((m.log ⟨ref, address, is_write, false⟩).put ref
          { (if is_write ≠ 0 then
              { m.get ref with write_miss := (m.get ref).write_miss + 1 }
            else { m.get ref with read_miss := (m.get ref).read_miss + 1 }) with
            miss := (if is_write ≠ 0 then
              { m.get ref with write_miss := (m.get ref).write_miss + 1 }
            else { m.get ref with read_miss := (m.get ref).read_miss + 1 }).miss + 1 }))
      = some m2 := by
    rw [← hm2]
    unfold write_back_to_l2
    split <;> split <;> rfl
  simp only [cache_access, hdec, hset, hscan, hlru, hvictim, hm2', hset3, hblock3, hupd]

theorem configured_facts (m : memory_t) (h : configured m) (r : cache_ref) :
    (m.get r).blocksize = 512 ∧
    (m.get r).numsets = (configured_sets r : Int) ∧
    (m.get r).associativity = (configured_ways r : Int) ∧
    (m.get r).sets.length = configured_sets r ∧
    (∀ s ∈ (m.get r).sets, s.blocks.length = configured_ways r) ∧
    (r = cache_ref.l1_instruction_cache → (m.get r).writeback = 0) := by
  obtain ⟨hb, hn, ha, hw, _, hl⟩ := h r
  have hlen : (m.get r).sets.length = (initial_memory.get r).sets.length := by
    have := congrArg List.length hl
    simpa using this
  have hok0 : shape_ok (initial_memory.get r) := by
    cases r
    · exact cache_init_shape_ok (32 * 1024) 512 4 0 _ (by decide)
    · exact cache_init_shape_ok (32 * 1024) 512 8 1 _ (by decide)
    · exact cache_init_shape_ok (256 * 1024) 512 8 1 _ (by decide)
  have hok : shape_ok (m.get r) := shape_ok_of_same_shape (h r) hok0
  have ha' : (m.get r).associativity = (configured_ways r : Int) := by
    rw [ha]; cases r <;> decide
  refine ⟨?_, ?_, ha', ?_, ?_, ?_⟩
  · rw [hb]; cases r <;> decide
  · rw [hn]; cases r <;> decide
  · rw [hlen]; cases r <;> decide
  · intro s hs
    rw [hok s hs, ha']
    exact Int.toNat_ofNat _
  · intro hr
    rw [hw, hr]
    decide

theorem configured_sets_bounds (r : cache_ref) :
    0 < configured_sets r ∧ configured_sets r ≤ 64 ∧ 0 < configured_ways r := by
  cases r <;> decide

theorem decode_configured (c : cache_t) (ns address : Nat) (hb : c.blocksize = 512)
    (hn : c.numsets = (ns : Int)) (h0 : 0 < ns) (h64 : ns ≤ 64) :
    decode c address = some (address &&& 511, address / 512 % ns, address / (512 * ns)) := by
  have u1 : to_unsigned (512 : Int) = 512 := by decide
  have u2 : to_unsigned (ns : Int) = ns := to_unsigned_natCast ns (by omega)
  have u3 : to_unsigned ((512 : Int) * (ns : Int)) = 512 * ns := by
    exact_mod_cast to_unsigned_natCast (512 * ns) (by omega)
  have u4 : to_unsigned ((512 : Int) - 1) = 511 := by decide
  unfold decode
  rw [hb, hn, u1, u2, u3, u4]
  have hne : ¬ (512 = 0 ∨ ns = 0 ∨ 512 * ns = 0) := by omega
  rw [if_neg hne]

theorem configured_put_miss (m : memory_t) (ref : cache_ref) (e : access_t) (w : Int)
    (h : configured m) : configured ((m.log e).put ref (miss_counters (m.get ref) w)) := by
  intro r
  by_cases hr : r = ref
  · subst hr
    rw [get_put_same]
    exact same_shape_trans (h r) (miss_counters_shape _ _)
  · rw [get_put_other _ _ _ _ hr, get_log]
    exact h r

theorem configured_access (fuel : Nat) (m m' : memory_t) (ref : cache_ref) (address : Nat)
    (w : Int) (h : configured m) (hstep : cache_access fuel m ref address w = some m') :
    configured m' :=
  fun r => same_shape_trans (h r) (cache_access_shape fuel m m' ref address w hstep r)

theorem cache_access_total_step (fuel : Nat) (m : memory_t) (ref : cache_ref) (address : Nat)
    (w : Int) (hc : configured m)
    (hnested : ∀ (set : set_t) (lru : Nat) (victim : block_t),
      (m.get ref).sets[address / 512 % configured_sets ref]? = some set →
      set.blocks[lru]? = some victim → lru < configured_ways ref →
      victim.dirty ≠ 0 → (m.get ref).writeback ≠ 0 →
      ∃ m2, cache_access fuel
        ((m.log ⟨ref, address, w, false⟩).put ref (miss_counters (m.get ref) w))
        cache_ref.l2_cache
        (write_back_address victim.tag (address / 512 % configured_sets ref)) 1 = some m2) :
    ∃ m', cache_access (fuel + 1) m ref address w = some m' := by
  obtain ⟨hb, hn, ha, hlen, hblocks, _⟩ := configured_facts m hc ref
  obtain ⟨hs0, hs64, hw0⟩ := configured_sets_bounds ref
  have hdec := decode_configured (m.get ref) (configured_sets ref) address hb hn hs0 hs64
  have hidx : address / 512 % configured_sets ref < (m.get ref).sets.length := by
    rw [hlen]; exact Nat.mod_lt _ hs0
  have hset : (m.get ref).sets[address / 512 % configured_sets ref]?
      = some ((m.get ref).sets[address / 512 % configured_sets ref]) :=
    List.getElem?_eq_getElem hidx
  generalize (m.get ref).sets[address / 512 % configured_sets ref] = set at hset
  have hsl : set.blocks.length = configured_ways ref := hblocks set (List.getElem?_mem hset)
  have hat : (m.get ref).associativity.toNat = configured_ways ref := by
    rw [ha]; exact Int.toNat_ofNat _
  obtain ⟨r, hscan⟩ := scan_blocks_total (address / (512 * configured_sets ref)) set.blocks
    (m.get ref).associativity.toNat 0 (by omega)
  cases r with
  | some j =>
    obtain ⟨b, hbj, _, _⟩ := scan_blocks_found _ _ _ _ _ hscan
    obtain ⟨set2, hset2⟩ := update_block_ages_total (mark_dirty set j b w)
      (m.get ref).associativity j (by rw [mark_dirty_length]; omega)
      (by rw [mark_dirty_length]; exact getElem?_lt_length hbj)
    exact ⟨_, cache_access_hit fuel m ref address w _ _ _ j set set2 b hdec hset hscan hbj hset2⟩
  | none =>
    obtain ⟨lru, hlru, hlt⟩ := find_lru_block_index_total set (configured_ways ref) hw0 hsl
    rw [← ha] at hlru
    have hvictim : set.blocks[lru]? = some (set.blocks[lru]) := List.getElem?_eq_getElem hlt
    generalize set.blocks[lru] = victim at hvictim
    have hm2 : ∃ m2, (if victim.dirty ≠ 0 ∧ (m.get ref).writeback ≠ 0 then
             cache_access fuel
               ((m.log ⟨ref, address, w, false⟩).put ref (miss_counters (m.get ref) w))
               cache_ref.l2_cache
               (write_back_address victim.tag (address / 512 % configured_sets ref)) 1
           else some ((m.log ⟨ref, address, w, false⟩).put ref
                 (miss_counters (m.get ref) w))) = some m2 ∧ configured m2 := by
      have hc1 := configured_put_miss m ref ⟨ref, address, w, false⟩ w hc
      by_cases hd : victim.dirty ≠ 0 ∧ (m.get ref).writeback ≠ 0
      · obtain ⟨m2, h2⟩ := hnested set lru victim hset hvictim (by omega) hd.1 hd.2
        refine ⟨m2, ?_, configured_access _ _ _ _ _ _ hc1 h2⟩
        rw [if_pos hd]; exact h2
      · exact ⟨_, if_neg hd, hc1⟩
    obtain ⟨m2, hm2, hc2⟩ := hm2
    obtain ⟨_, _, ha2, hlen2, hblocks2, _⟩ := configured_facts m2 hc2 ref
    have hidx2 : address / 512 % configured_sets ref < (m2.get ref).sets.length := by
      rw [hlen2]; exact Nat.mod_lt _ hs0
    have hset3 : (m2.get ref).sets[address / 512 % configured_sets ref]?
        = some ((m2.get ref).sets[address / 512 % configured_sets ref]) :=
      List.getElem?_eq_getElem hidx2
    generalize (m2.get ref).sets[address / 512 % configured_sets ref] = set3 at hset3
    have hsl3 : set3.blocks.length = configured_ways ref :=
      hblocks2 set3 (List.getElem?_mem hset3)
    have hlt3 : lru < set3.blocks.length := by omega
    have hblock3 : set3.blocks[lru]? = some (set3.blocks[lru]) := List.getElem?_eq_getElem hlt3
    generalize set3.blocks[lru] = block3 at hblock3
    have hat2 : (m2.get ref).associativity.toNat = configured_ways ref := by
      rw [ha2]; exact Int.toNat_ofNat _
    have hil : (install set3 lru block3 (address / (512 * configured_sets ref)) w).blocks.length
        = set3.blocks.length := List.length_set _ _ _
    obtain ⟨set5, hset5⟩ := update_block_ages_total
      (install set3 lru block3 (address / (512 * configured_sets ref)) w)
      (m2.get ref).associativity lru (by omega) (by omega)
    exact ⟨_, cache_access_miss fuel m m2 ref address w _ _ _ lru set set3 set5 victim block3
      hdec hset hscan hlru hvictim hm2 hset3 hblock3 hset5⟩

theorem blocks_forall_of_erase (P : block_t → Prop)
    (hP : ∀ b b', erase_age b = erase_age b' → P b' → P b) {xs ys : List block_t}
    (h : xs.map erase_age = ys.map erase_age) (hy : ∀ b ∈ ys, P b) : ∀ b ∈ xs, P b := by
  intro b hb
  have hmem : erase_age b ∈ ys.map erase_age := by
    rw [← h]; exact List.mem_map.mpr ⟨b, hb, rfl⟩
  obtain ⟨b0, hb0, he⟩ := List.mem_map.mp hmem
  exact hP b b0 he.symm (hy b0 hb0)

theorem block_ok_erase (b b' : block_t) (h : erase_age b = erase_age b')
    (hb : (b'.dirty ≠ 0 → b'.valid ≠ 0) ∧ b'.tag < 131072) :
    (b.dirty ≠ 0 → b.valid ≠ 0) ∧ b.tag < 131072 := by
  simp only [erase_age, block_t.mk.injEq] at h
  obtain ⟨ht, hv, hd, _⟩ := h
  rw [ht, hv, hd]
  exact hb

theorem write_back_address_eq (tag index : Nat) (h : index < 512) :
    write_back_address tag index = tag % 131072 * 32768 + index * 64 := by
  unfold write_back_address
  rw [Nat.shiftLeft_eq, Nat.shiftLeft_eq]
  have e1 : tag * 2 ^ 15 % 4294967296 = 2 ^ 15 * (tag % 131072) := by omega
  have e2 : index * 2 ^ 6 % 4294967296 = index * 64 := by omega
  rw [e1, e2, ← Nat.mul_add_lt_is_or (by omega)]
  omega

theorem write_back_address_lt (tag index : Nat) :
    write_back_address tag index < 4294967296 := by
  unfold write_back_address
  exact Nat.or_lt_two_pow (n := 32) (Nat.mod_lt _ (by decide)) (Nat.mod_lt _ (by decide))

theorem l2_blocks_ok_put_miss (m : memory_t) (ref : cache_ref) (e : access_t) (w : Int)
    (h : l2_blocks_ok m) : l2_blocks_ok ((m.log e).put ref (miss_counters (m.get ref) w)) := by
  have hsets : ((m.log e).put ref (miss_counters (m.get ref) w)).l2_cache.sets
      = m.l2_cache.sets := by
    cases ref
    · rfl
    · rfl
    · show (miss_counters m.l2_cache w).sets = _
      unfold miss_counters
      split <;> rfl
  intro s hs
  rw [hsets] at hs
  exact h s hs

theorem l2_blocks_ok_put_sets (m : memory_t) (ref : cache_ref) (c : cache_t) (index : Nat)
    (s : set_t) (h : l2_blocks_ok m) (hsets : c.sets = (m.get ref).sets.set index s)
    (hs : ref = cache_ref.l2_cache → ∀ b ∈ s.blocks, (b.dirty ≠ 0 → b.valid ≠ 0) ∧ b.tag < 131072) :
    l2_blocks_ok (m.put ref c) := by
  by_cases hr : ref = cache_ref.l2_cache
  · subst hr
    intro s' hs'
    change s' ∈ c.sets at hs'
    rw [hsets] at hs'
    rcases List.mem_or_eq_of_mem_set hs' with hmem | heq
    · exact h s' hmem
    · rw [heq]; exact hs rfl
  · have : (m.put ref c).l2_cache = m.l2_cache :=
      get_put_other m ref cache_ref.l2_cache c (fun e => hr e.symm)
    intro s' hs'
    rw [this] at hs'
    exact h s' hs'

theorem cache_access_l2_blocks_ok (fuel : Nat) : ∀ (m m' : memory_t) (ref : cache_ref)
    (address : Nat) (w : Int), configured m → l2_blocks_ok m → address < 4294967296 →
    cache_access fuel m ref address w = some m' → l2_blocks_ok m' := by
  induction fuel with
  | zero => intro m m' ref address w _ _ _ h; exact Option.noConfusion h
  | succ fuel ih =>
    intro m m' ref address w hc hok haddr h
    obtain ⟨off, index, tag, set, hdec, hset, hcase⟩ := cache_access_inv _ _ _ _ _ _ h
    rcases hcase with ⟨i, block, set2, hscan, hblock, hupd, hm'⟩ |
      ⟨lru, victim, m2, set3, block3, set5, hscan, hlru, hvictim, hm2, hset3, hblock3, hupd, hm'⟩
    · subst hm'
      have hlog : l2_blocks_ok (m.log ⟨ref, address, w, true⟩) := hok
      refine l2_blocks_ok_put_sets _ ref _ index set2 hlog ?_ ?_
      · rw [get_log]
      · intro hr
        subst hr
        have hsetok : ∀ b ∈ set.blocks, (b.dirty ≠ 0 → b.valid ≠ 0) ∧ b.tag < 131072 :=
          hok set (List.getElem?_mem hset)
        refine blocks_forall_of_erase _ block_ok_erase
          (update_block_ages_erase _ _ _ _ hupd) ?_
        unfold mark_dirty
        split
        · intro b hb
          rcases List.mem_or_eq_of_mem_set hb with hmem | heq
          · exact hsetok b hmem
          · obtain ⟨b0, hb0, hv, _⟩ := scan_blocks_found _ _ _ _ _ hscan
            rw [hblock] at hb0
            simp only [Option.some.injEq] at hb0
            subst hb0
            rw [heq]
            exact ⟨fun _ => hv, (hsetok block (List.getElem?_mem hblock)).2⟩
        · exact hsetok
    · have hc1 := configured_put_miss m ref ⟨ref, address, w, false⟩ w hc
      have hok1 := l2_blocks_ok_put_miss m ref ⟨ref, address, w, false⟩ w hok
      have hc2 : configured m2 ∧ l2_blocks_ok m2 := by
        split at hm2
        · exact ⟨configured_access _ _ _ _ _ _ hc1 hm2,
            ih _ _ _ _ _ hc1 hok1 (write_back_address_lt _ _) hm2⟩
        · simp only [Option.some.injEq] at hm2
          rw [← hm2]
          exact ⟨hc1, hok1⟩
      obtain ⟨hc2, hok2⟩ := hc2
      subst hm'
      refine l2_blocks_ok_put_sets m2 ref _ index set5 hok2 rfl ?_
      intro hr
      subst hr
      obtain ⟨hb, hn, _, _, _, _⟩ := configured_facts m hc cache_ref.l2_cache
      have hdec' := decode_configured (m.get cache_ref.l2_cache) 64 address hb hn
        (by decide) (by decide)
      rw [hdec] at hdec'
      simp only [Option.some.injEq, Prod.mk.injEq] at hdec'
      obtain ⟨_, _, htag⟩ := hdec'
      refine blocks_forall_of_erase _ block_ok_erase
        (update_block_ages_erase _ _ _ _ hupd) ?_
      intro b hb
      rcases List.mem_or_eq_of_mem_set hb with hmem | heq
      · exact hok2 set3 (List.getElem?_mem hset3) b hmem
      · rw [heq]
        refine ⟨fun _ => Int.one_ne_zero, ?_⟩
        show tag < 131072
        rw [htag]
        omega

theorem l2_access_total (fuel : Nat) : ∀ (m : memory_t) (address : Nat) (w : Int),
    configured m → l2_blocks_ok m → address < 4294967296 →
    l2_fuel (address / 512 % 64) ≤ fuel →
    ∃ m', cache_access fuel m cache_ref.l2_cache address w = some m' := by
  induction fuel with
  | zero =>
    intro m address w _ _ _ hf
    unfold l2_fuel at hf
    split at hf
    · omega
    · split at hf <;> omega
  | succ fuel ih =>
    intro m address w hc hok haddr hf
    apply cache_access_total_step fuel m cache_ref.l2_cache address w hc
    intro set lru victim hset hvictim hlru hd _
    change m.l2_cache.sets[address / 512 % 64]? = some set at hset
    change lru < 8 at hlru
    obtain ⟨hdv, htag⟩ := hok set (List.getElem?_mem hset) victim (List.getElem?_mem hvictim)
    have hv := hdv hd
    have hidx : address / 512 % 64 < 64 := Nat.mod_lt _ (by decide)
    have hwba := write_back_address_eq victim.tag (address / 512 % 64) (by omega)
    have hc1 := configured_put_miss m cache_ref.l2_cache
      ⟨cache_ref.l2_cache, address, w, false⟩ w hc
    have hok1 := l2_blocks_ok_put_miss m cache_ref.l2_cache
      ⟨cache_ref.l2_cache, address, w, false⟩ w hok
    show ∃ m2, cache_access fuel _ cache_ref.l2_cache
      (write_back_address victim.tag (address / 512 % 64)) 1 = some m2
    by_cases h0 : address / 512 % 64 = 0
    · -- the write-back from set 0 hits the block being evicted
      have hfuel : 1 ≤ fuel := by
        unfold l2_fuel at hf
        rw [if_pos h0] at hf
        omega
      obtain ⟨k, hk⟩ : ∃ k, fuel = k + 1 := ⟨fuel - 1, by omega⟩
      subst hk
      generalize hm1 : (m.log ⟨cache_ref.l2_cache, address, w, false⟩).put cache_ref.l2_cache
        (miss_counters (m.get cache_ref.l2_cache) w) = m1 at hc1 hok1 ⊢
      obtain ⟨hb, hn, ha, _, hblocks, _⟩ := configured_facts m1 hc1 cache_ref.l2_cache
      have hdec := decode_configured (m1.get cache_ref.l2_cache) 64
        (write_back_address victim.tag (address / 512 % 64)) hb hn (by decide) (by decide)
      have hsets1 : (m1.get cache_ref.l2_cache).sets = m.l2_cache.sets := by
        rw [← hm1, get_put_same]
        unfold miss_counters
        split <;> rfl
      have hi0 : write_back_address victim.tag (address / 512 % 64) / 512 % 64 = 0 := by
        rw [hwba]; omega
      have ht0 : write_back_address victim.tag (address / 512 % 64) / (512 * 64)
          = victim.tag := by
        rw [hwba]; omega
      rw [hi0, ht0] at hdec
      have hset1 : (m1.get cache_ref.l2_cache).sets[0]? = some set := by
        rw [hsets1, ← h0]; exact hset
      have hsl : set.blocks.length = 8 := hblocks set (List.getElem?_mem hset1)
      have hat : (m1.get cache_ref.l2_cache).associativity.toNat = 8 := by
        rw [ha]; rfl
      obtain ⟨j, hj⟩ := scan_blocks_hits victim.tag set.blocks
        (m1.get cache_ref.l2_cache).associativity.toNat 0 lru victim (by omega)
        (Nat.zero_le _) (by omega) hvictim hv rfl
      obtain ⟨b, hbj, _, _⟩ := scan_blocks_found _ _ _ _ _ hj
      obtain ⟨set2, hset2⟩ := update_block_ages_total (mark_dirty set j b 1)
        (m1.get cache_ref.l2_cache).associativity j (by rw [mark_dirty_length]; omega)
        (by rw [mark_dirty_length]; exact getElem?_lt_length hbj)
      exact ⟨_, cache_access_hit k m1 cache_ref.l2_cache _ 1 _ 0 victim.tag j set set2 b
        hdec hset1 hj hbj hset2⟩
    · apply ih _ _ 1 hc1 hok1 (write_back_address_lt _ _)
      have hi : write_back_address victim.tag (address / 512 % 64) / 512 % 64
          = address / 512 % 64 / 8 := by
        rw [hwba]; omega
      rw [hi]
      unfold l2_fuel at hf ⊢
      rw [if_neg h0] at hf
      split at hf
      · have : address / 512 % 64 / 8 = 0 := by omega
        rw [if_pos this]; omega
      · split
        · omega
        · have : address / 512 % 64 / 8 < 8 := by omega
          rw [if_pos this]; omega

theorem l2_fuel_le (index : Nat) : l2_fuel index ≤ 4 := by
  unfold l2_fuel
  split
  · omega
  · split <;> omega

theorem cache_access_total (fuel : Nat) (m : memory_t) (ref : cache_ref) (address : Nat)
    (w : Int) (hc : configured m) (hok : l2_blocks_ok m) (haddr : address < 4294967296)
    (hf : 4 ≤ fuel) : ∃ m', cache_access fuel m ref address w = some m' := by
  by_cases hr : ref = cache_ref.l2_cache
  · subst hr
    exact l2_access_total fuel m address w hc hok haddr
      (le_trans (l2_fuel_le _) hf)
  · obtain ⟨k, hk⟩ : ∃ k, fuel = k + 1 := ⟨fuel - 1, by omega⟩
    subst hk
    apply cache_access_total_step k m ref address w hc
    intro set lru victim _ _ _ _ hwb
    have hc1 := configured_put_miss m ref ⟨ref, address, w, false⟩ w hc
    have hok1 := l2_blocks_ok_put_miss m ref ⟨ref, address, w, false⟩ w hok
    apply l2_access_total k _ _ 1 hc1 hok1 (write_back_address_lt _ _)
    obtain ⟨_, _, _, _, _, hwt⟩ := configured_facts m hc ref
    have hd : ref = cache_ref.l1_data_cache := by
      cases ref
      · exact absurd (hwt rfl) hwb
      · rfl
      · exact absurd rfl hr
    subst hd
    have hidx : address / 512 % configured_sets cache_ref.l1_data_cache < 8 :=
      Nat.mod_lt _ (by decide)
    have hi : write_back_address victim.tag
        (address / 512 % configured_sets cache_ref.l1_data_cache) / 512 % 64 = 0 := by
      rw [write_back_address_eq _ _ (by omega)]; omega
    rw [hi]
    show 2 ≤ k
    omega

theorem hierarchy_statics (m : memory_t) (n : Nat) (i d l : Int)
    (h : configured m ∧ l2_blocks_ok m) :
    configured { m with instr_count := n, l1i_miss := i, l1d_miss := d, l2_miss := l } ∧
    l2_blocks_ok { m with instr_count := n, l1i_miss := i, l1d_miss := d, l2_miss := l } := by
  refine ⟨?_, h.2⟩
  intro r
  have := h.1 r
  cases r <;> exact this

theorem hierarchy_access (fuel : Nat) (m m' : memory_t) (ref : cache_ref) (address : Nat)
    (w : Int) (haddr : address < 4294967296) (h : configured m ∧ l2_blocks_ok m)
    (hstep : cache_access fuel m ref address w = some m') :
    configured m' ∧ l2_blocks_ok m' :=
  ⟨configured_access _ _ _ _ _ _ h.1 hstep,
   cache_access_l2_blocks_ok _ _ _ _ _ _ h.1 h.2 haddr hstep⟩

theorem initial_memory_ok : configured initial_memory ∧ l2_blocks_ok initial_memory := by
  refine ⟨fun r => same_shape_refl _, ?_⟩
  intro s hs b hb
  have hc : cache_init (256 * 1024) 512 8 1 = some initial_memory.l2_cache := by decide
  unfold cache_init at hc
  split at hc
  · exact Option.noConfusion hc
  · simp only [Option.some.injEq] at hc
    rw [← hc] at hs
    have := List.eq_of_mem_replicate hs
    subst this
    have := List.eq_of_mem_replicate hb
    subst this
    decide

theorem step_total (fuel : Nat) (m : memory_t) (op : op_t) (hf : 4 ≤ fuel)
    (haddr : op.address < 4294967296) (h : configured m ∧ l2_blocks_ok m) :
    ∃ m', step fuel m op = some m' := by
  cases op with
  | fetch address =>
    obtain ⟨m1, h1⟩ := cache_access_total fuel m cache_ref.l1_instruction_cache address 0
      h.1 h.2 haddr hf
    have q1 := hierarchy_access _ _ _ _ _ _ haddr h h1
    simp only [step, memory_fetch, h1]
    by_cases hcond : m1.l1_instruction_cache.miss > m1.l1i_miss
    · have q1' := hierarchy_statics m1 m1.instr_count m1.l1_instruction_cache.miss
        m1.l1d_miss m1.l2_miss q1
      obtain ⟨m2, h2⟩ := cache_access_total fuel _ cache_ref.l2_cache address 0
        q1'.1 q1'.2 haddr hf
      simp only [if_pos hcond, h2]
      exact ⟨_, rfl⟩
    · simp only [if_neg hcond]
      exact ⟨_, rfl⟩
  | read address =>
    obtain ⟨m1, h1⟩ := cache_access_total fuel m cache_ref.l1_data_cache address 0
      h.1 h.2 haddr hf
    have q1 := hierarchy_access _ _ _ _ _ _ haddr h h1
    simp only [step, memory_read, h1]
    by_cases hcond : m1.l1_data_cache.miss > m1.l1d_miss
    · have q1' := hierarchy_statics m1 m1.instr_count m1.l1i_miss m1.l1_data_cache.miss
        m1.l2_miss q1
      obtain ⟨m2, h2⟩ := cache_access_total fuel _ cache_ref.l2_cache address 0
        q1'.1 q1'.2 haddr hf
      simp only [if_pos hcond, h2]
      by_cases hc2 : m2.l2_cache.miss > m2.l2_miss
      · simp only [if_pos hc2]
        exact ⟨_, rfl⟩
      · simp only [if_neg hc2]
        exact ⟨_, rfl⟩
    · simp only [if_neg hcond]
      exact ⟨_, rfl⟩
  | write address =>
    obtain ⟨m1, h1⟩ := cache_access_total fuel m cache_ref.l1_data_cache address 1
      h.1 h.2 haddr hf
    have q1 := hierarchy_access _ _ _ _ _ _ haddr h h1
    simp only [step, memory_write, h1]
    by_cases hcond : m1.l1_data_cache.miss - m1.l1_data_cache.hit = 1
    · obtain ⟨m2, h2⟩ := cache_access_total fuel _ cache_ref.l2_cache address 1
        q1.1 q1.2 haddr hf
      simp only [if_pos hcond, h2]
      exact ⟨_, rfl⟩
    · simp only [if_neg hcond]
      exact ⟨_, rfl⟩

theorem cache_access_frame (fuel : Nat) : ∀ (m m' : memory_t) (ref : cache_ref) (address : Nat)
    (w : Int), cache_access fuel m ref address w = some m' →
    ∀ r, r ≠ ref → r ≠ cache_ref.l2_cache → m'.get r = m.get r := by
  induction fuel with
  | zero => intro m m' ref address w h; exact Option.noConfusion h
  | succ fuel ih =>
    intro m m' ref address w h r hr hr2
    obtain ⟨off, index, tag, set, hdec, hset, hcase⟩ := cache_access_inv _ _ _ _ _ _ h
    rcases hcase with ⟨i, block, set2, hscan, hblock, hupd, hm'⟩ |
      ⟨lru, victim, m2, set3, block3, set5, hscan, hlru, hvictim, hm2, hset3, hblock3, hupd, hm'⟩
    · subst hm'
      rw [get_put_other _ _ _ _ hr, get_log]
    · have h2 : m2.get r = m.get r := by
        split at hm2
        · rw [ih _ _ _ _ _ hm2 r hr2 hr2, get_put_other _ _ _ _ hr, get_log]
        · simp only [Option.some.injEq] at hm2
          rw [← hm2, get_put_other _ _ _ _ hr, get_log]
      subst hm'
      rw [get_put_other _ _ _ _ hr, h2]

theorem instruction_cache_stays_clean (fuel : Nat) (ops : List op_t) (m : memory_t)
    (h : run fuel initial_memory ops = some m) : all_clean m.l1_instruction_cache := by
  refine run_preserves (fun x => all_clean x.l1_instruction_cache) (fun _ _ _ _ _ hx => hx)
    fuel ops ?_ initial_memory m ?_ h
  · intro op _ x x' ref w hx hw hstep
    by_cases hr : ref = cache_ref.l1_instruction_cache
    · subst hr
      rw [hw rfl] at hstep
      exact read_access_clean fuel x x' cache_ref.l1_instruction_cache op.address hx hstep
    · have hframe := cache_access_frame _ _ _ _ _ _ hstep cache_ref.l1_instruction_cache
        (fun e => hr e.symm) (by decide)
      change x'.l1_instruction_cache = x.l1_instruction_cache at hframe
      show all_clean x'.l1_instruction_cache
      rw [hframe]
      exact hx
  · exact cache_init_all_clean (32 * 1024) 512 4 0 _ (by decide)

/-! ## The replacement loops, exactly -/

theorem find_lru_loop_spec (blocks : List block_t) (n : Nat) :
    ∀ (i lru : Nat) (max_age : Int), i + n ≤ blocks.length → lru < i →
    (∃ bl, blocks[lru]? = some bl ∧ bl.age = max_age) →
    (∀ j bj, j < i → blocks[j]? = some bj → bj.age ≤ max_age) →
    (∀ j bj, j < lru → blocks[j]? = some bj → bj.age < max_age) →
    ∃ r br, find_lru_loop blocks n i lru max_age = some r ∧ r < i + n ∧
      blocks[r]? = some br ∧
      (∀ j bj, j < i + n → blocks[j]? = some bj → bj.age ≤ br.age) ∧
      (∀ j bj, j < r → blocks[j]? = some bj → bj.age < br.age) := by
  induction n with
  | zero =>
    intro i lru max_age _ hl hbl hle hlt
    obtain ⟨bl, hb, ha⟩ := hbl
    refine ⟨lru, bl, rfl, by omega, hb, ?_, ?_⟩
    · intro j bj hj hbj; rw [ha]; exact hle j bj (by omega) hbj
    · intro j bj hj hbj; rw [ha]; exact hlt j bj hj hbj
  | succ n ih =>
    intro i lru max_age hlen hl hbl hle hlt
    have hi : i < blocks.length := by omega
    have hbi : blocks[i]? = some blocks[i] := List.getElem?_eq_getElem hi
    generalize blocks[i] = b at hbi
    simp only [find_lru_loop, hbi]
    by_cases hgt : b.age > max_age
    · rw [if_pos hgt]
      obtain ⟨r, br, h1, h2, h3, h4, h5⟩ := ih (i + 1) i b.age (by omega) (by omega)
        ⟨b, hbi, rfl⟩
        (fun j bj hj hbj => by
          by_cases hji : j = i
          · subst hji
            rw [hbi] at hbj
            simp only [Option.some.injEq] at hbj
            rw [hbj]
          · have := hle j bj (by omega) hbj
            omega)
        (fun j bj hj hbj => by
          have := hle j bj hj hbj
          omega)
      exact ⟨r, br, h1, by omega, h3, fun j bj hj => h4 j bj (by omega), h5⟩
    · rw [if_neg hgt]
      obtain ⟨r, br, h1, h2, h3, h4, h5⟩ := ih (i + 1) lru max_age (by omega) (by omega) hbl
        (fun j bj hj hbj => by
          by_cases hji : j = i
          · subst hji
            rw [hbi] at hbj
            simp only [Option.some.injEq] at hbj
            rw [← hbj]
            omega
          · exact hle j bj (by omega) hbj)
        hlt
      exact ⟨r, br, h1, by omega, h3, fun j bj hj => h4 j bj (by omega), h5⟩

theorem age_loop_get (n : Nat) : ∀ (blocks : List block_t) (i : Nat) (blocks' : List block_t),
    age_loop blocks n i = some blocks' →
    ∀ j, blocks'[j]? = (blocks[j]?).map (fun b =>
      if i ≤ j ∧ j < i + n ∧ b.valid ≠ 0 then { b with age := b.age + 1 } else b) := by
  induction n with
  | zero =>
    intro blocks i blocks' h j
    simp only [age_loop, Option.some.injEq] at h
    subst h
    have : ∀ b : block_t, ¬ (i ≤ j ∧ j < i + 0 ∧ b.valid ≠ 0) := fun b hb => by omega
    simp only [this, if_false]
    cases blocks[j]? <;> rfl
  | succ n ih =>
    intro blocks i blocks' h j
    simp only [age_loop] at h
    cases hb : blocks[i]? with
    | none => simp only [hb] at h; exact Option.noConfusion h
    | some b =>
      simp only [hb] at h
      rw [ih _ _ _ h j]
      by_cases hji : j = i
      · subst hji
        have hlt : j < blocks.length := getElem?_lt_length hb
        have c1 : ∀ x : block_t, ¬ (j + 1 ≤ j ∧ j < j + 1 + n ∧ x.valid ≠ 0) :=
          fun x hx => by omega
        simp only [c1, if_false, hb, Option.map_some']
        by_cases hv : b.valid ≠ 0
        · rw [if_pos hv, List.getElem?_set_self hlt]
          have c2 : j ≤ j ∧ j < j + (n + 1) ∧ b.valid ≠ 0 := ⟨le_refl _, by omega, hv⟩
          simp only [Option.map_some', if_pos c2]
        · rw [if_neg hv, hb]
          have c2 : ¬ (j ≤ j ∧ j < j + (n + 1) ∧ b.valid ≠ 0) := fun hx => hv hx.2.2
          simp only [Option.map_some', if_neg c2]
      · have hset : (if b.valid ≠ 0 then blocks.set i { b with age := b.age + 1 }
            else blocks)[j]? = blocks[j]? := by
          split
          · exact List.getElem?_set_ne (fun e => hji e.symm)
          · rfl
        rw [hset]
        cases hx : blocks[j]? with
        | none => rfl
        | some x =>
          simp only [Option.map_some', Option.some.injEq]
          by_cases hc : i ≤ j ∧ j < i + (n + 1) ∧ x.valid ≠ 0
          · have hc' : i + 1 ≤ j ∧ j < i + 1 + n ∧ x.valid ≠ 0 :=
              ⟨by omega, by omega, hc.2.2⟩
            rw [if_pos hc, if_pos hc']
          · have hc' : ¬ (i + 1 ≤ j ∧ j < i + 1 + n ∧ x.valid ≠ 0) :=
              fun hx' => hc ⟨by omega, by omega, hx'.2.2⟩
            rw [if_neg hc, if_neg hc']

theorem update_block_ages_get (set set' : set_t) (associativity : Int) (k : Nat)
    (h : update_block_ages set associativity k = some set') :
    ∀ j b, set.blocks[j]? = some b →
      set'.blocks[j]? = some
        (if j = k then { b with age := 0 }
         else if j < associativity.toNat ∧ b.valid ≠ 0 then { b with age := b.age + 1 }
         else b) := by
  intro j b hb
  unfold update_block_ages at h
  cases h1 : age_loop set.blocks associativity.toNat 0 with
  | none => rw [h1] at h; exact Option.noConfusion h
  | some blocks =>
    simp only [h1] at h
    cases h2 : blocks[k]? with
    | none => simp only [h2] at h; exact Option.noConfusion h
    | some bk =>
      simp only [h2, Option.some.injEq] at h
      subst h
      have hget := age_loop_get _ _ _ _ h1
      show (blocks.set k _)[j]? = _
      by_cases hjk : j = k
      · subst hjk
        rw [List.getElem?_set_self (getElem?_lt_length h2), if_pos rfl]
        have := hget j
        rw [h2, hb] at this
        simp only [Option.map_some', Option.some.injEq] at this
        rw [this]
        split <;> rfl
      · rw [List.getElem?_set_ne (fun e => hjk e.symm), if_neg hjk, hget j, hb]
        simp only [Option.map_some', Option.some.injEq]
        by_cases hc : j < associativity.toNat ∧ b.valid ≠ 0
        · rw [if_pos hc, if_pos ⟨Nat.zero_le _, by omega, hc.2⟩]
        · rw [if_neg hc, if_neg (fun hx => hc ⟨by omega, hx.2.2⟩)]

/-! ## Only block 0 of a set is ever used -/

theorem find_lru_loop_slot0 (blocks : List block_t) (htail : tail_init blocks) (n : Nat) :
    ∀ (i lru r : Nat) (max_age : Int), 1 ≤ i → -1 ≤ max_age →
    find_lru_loop blocks n i lru max_age = some r → r = lru := by
  induction n with
  | zero =>
    intro i lru r max_age _ _ h
    simp only [find_lru_loop, Option.some.injEq] at h
    exact h.symm
  | succ n ih =>
    intro i lru r max_age hi hmax h
    simp only [find_lru_loop] at h
    cases hb : blocks[i]? with
    | none => simp only [hb] at h; exact Option.noConfusion h
    | some b =>
      simp only [hb] at h
      have hbi : b = block_init := htail i b hi hb
      have hage : ¬ (b.age > max_age) := by
        rw [hbi]
        show ¬ ((-1 : Int) > max_age)
        omega
      rw [if_neg hage] at h
      exact ih (i + 1) lru r max_age (by omega) hmax h

theorem find_lru_slot0 (set : set_t) (associativity : Int) (lru : Nat) (hs : slot0_set set)
    (h : find_lru_block_index set associativity = some lru) : lru = 0 := by
  unfold find_lru_block_index at h
  cases hb : set.blocks[0]? with
  | none => simp only [hb] at h; exact Option.noConfusion h
  | some b0 =>
    simp only [hb] at h
    exact find_lru_loop_slot0 set.blocks hs.1 _ 1 0 lru b0.age (le_refl _) (hs.2 b0 hb) h

theorem valid_slot0 (blocks : List block_t) (htail : tail_init blocks) (i : Nat) (b : block_t)
    (hb : blocks[i]? = some b) (hv : b.valid ≠ 0) : i = 0 := by
  by_contra hi
  have := htail i b (by omega) hb
  rw [this] at hv
  exact hv rfl

theorem scan_slot0 (set : set_t) (hs : slot0_set set) (tag n i : Nat)
    (h : scan_blocks set.blocks tag n 0 = some (some i)) : i = 0 := by
  obtain ⟨b, hb, hv, _⟩ := scan_blocks_found tag set.blocks n 0 i h
  exact valid_slot0 set.blocks hs.1 i b hb hv

theorem tail_init_set_zero (blocks : List block_t) (x : block_t) (h : tail_init blocks) :
    tail_init (blocks.set 0 x) := by
  intro k b hk hb
  rw [List.getElem?_set_ne (by omega)] at hb
  exact h k b hk hb

theorem update_block_ages_slot0 (set set' : set_t) (associativity : Int)
    (htail : tail_init set.blocks)
    (h : update_block_ages set associativity 0 = some set') : slot0_set set' := by
  have hlen := update_block_ages_length _ _ _ _ h
  have hget := update_block_ages_get set set' associativity 0 h
  constructor
  · intro k b' hk hb'
    have hklt : k < set.blocks.length := by
      rw [← hlen]; exact getElem?_lt_length hb'
    have hb : set.blocks[k]? = some set.blocks[k] := List.getElem?_eq_getElem hklt
    generalize set.blocks[k] = b at hb
    have hbi : b = block_init := htail k b hk hb
    have := hget k b hb
    rw [hb', if_neg (by omega)] at this
    have hv : ¬ (k < associativity.toNat ∧ b.valid ≠ 0) := by
      rw [hbi]
      exact fun hx => hx.2 rfl
    rw [if_neg hv] at this
    simp only [Option.some.injEq] at this
    rw [this, hbi]
  · intro b' hb'
    have h0 : 0 < set.blocks.length := by
      rw [← hlen]; exact getElem?_lt_length hb'
    have hb : set.blocks[0]? = some set.blocks[0] := List.getElem?_eq_getElem h0
    generalize set.blocks[0] = b at hb
    have := hget 0 b hb
    rw [hb', if_pos rfl] at this
    simp only [Option.some.injEq] at this
    rw [this]
    show (-1 : Int) ≤ 0
    decide

theorem slot0_only_set (c c' : cache_t) (index : Nat) (s : set_t)
    (hsets : c'.sets = c.sets.set index s) (hc : slot0_only c) (hs : slot0_set s) :
    slot0_only c' := by
  intro s' hs'
  rw [hsets] at hs'
  rcases List.mem_or_eq_of_mem_set hs' with hmem | heq
  · exact hc s' hmem
  · rw [heq]; exact hs

theorem cache_access_slot0 (fuel : Nat) : ∀ (m m' : memory_t) (ref : cache_ref)
    (address : Nat) (w : Int), (∀ r, slot0_only (m.get r)) →
    cache_access fuel m ref address w = some m' → ∀ r, slot0_only (m'.get r) := by
  induction fuel with
  | zero => intro m m' ref address w _ h; exact Option.noConfusion h
  | succ fuel ih =>
    intro m m' ref address w hm h r
    obtain ⟨off, index, tag, set, hdec, hset, hcase⟩ := cache_access_inv _ _ _ _ _ _ h
    have hs : slot0_set set := hm ref set (List.getElem?_mem hset)
    rcases hcase with ⟨i, block, set2, hscan, hblock, hupd, hm'⟩ |
      ⟨lru, victim, m2, set3, block3, set5, hscan, hlru, hvictim, hm2, hset3, hblock3, hupd, hm'⟩
    · have hi : i = 0 := scan_slot0 set hs _ _ _ hscan
      subst hi
      subst hm'
      by_cases hr : r = ref
      · subst hr
        rw [get_put_same]
        refine slot0_only_set (m.get r) _ index set2 rfl (hm r) ?_
        refine update_block_ages_slot0 _ set2 _ ?_ hupd
        unfold mark_dirty
        split
        · exact tail_init_set_zero _ _ hs.1
        · exact hs.1
      · rw [get_put_other _ _ _ _ hr, get_log]
        exact hm r
    · have hl : lru = 0 := find_lru_slot0 set _ lru hs hlru
      subst hl
      have h1 : ∀ r, slot0_only (((m.log ⟨ref, address, w, false⟩).put ref
          (miss_counters (m.get ref) w)).get r) := by
        intro r
        by_cases hr : r = ref
        · subst hr
          rw [get_put_same]
          have : (miss_counters (m.get r) w).sets = (m.get r).sets := by
            unfold miss_counters
            split <;> rfl
          intro s hs'
          rw [this] at hs'
          exact hm r s hs'
        · rw [get_put_other _ _ _ _ hr, get_log]
          exact hm r
      have h2 : ∀ r, slot0_only (m2.get r) := by
        split at hm2
        · exact ih _ _ _ _ _ h1 hm2
        · simp only [Option.some.injEq] at hm2
          rw [← hm2]
          exact h1
      subst hm'
      by_cases hr : r = ref
      · subst hr
        rw [get_put_same]
        refine slot0_only_set (m2.get r) _ index set5 rfl (h2 r) ?_
        refine update_block_ages_slot0 _ set5 _ ?_ hupd
        exact tail_init_set_zero _ _ (h2 r set3 (List.getElem?_mem hset3)).1
      · rw [get_put_other _ _ _ _ hr]
        exact h2 r

theorem cache_init_slot0 (cachesize blocksize associativity writeback : Int) (c : cache_t)
    (h : cache_init cachesize blocksize associativity writeback = some c) : slot0_only c := by
  unfold cache_init at h
  split at h
  · exact Option.noConfusion h
  · simp only [Option.some.injEq] at h
    subst h
    intro s hs
    have := List.eq_of_mem_replicate hs
    subst this
    constructor
    · intro k b _ hb
      exact List.eq_of_mem_replicate (List.getElem?_mem hb)
    · intro b hb
      have := List.eq_of_mem_replicate (List.getElem?_mem hb)
      rw [this]
      decide

theorem reachable_slot0 (m : memory_t) (h : reachable m) : ∀ r, slot0_only (m.get r) := by
  induction h with
  | init m s1 b1 a1 w1 s2 b2 a2 w2 s3 b3 a3 w3 h1 h2 h3 =>
    intro r
    cases r
    · exact cache_init_slot0 _ _ _ _ _ h1
    · exact cache_init_slot0 _ _ _ _ _ h2
    · exact cache_init_slot0 _ _ _ _ _ h3
  | access fuel m m' ref address is_write _ hstep ih =>
    exact cache_access_slot0 _ _ _ _ _ _ ih hstep
  | statics m n i d l _ ih =>
    intro r
    have := ih r
    cases r <;> exact this

theorem reachable_initial_memory : reachable initial_memory :=
  reachable.init initial_memory (32 * 1024) 512 4 0 (32 * 1024) 512 8 1 (256 * 1024) 512 8 1
    (by decide) (by decide) (by decide)

theorem reachable_memory_after_read : reachable memory_after_read :=
  reachable.access 1 initial_memory memory_after_read cache_ref.l1_instruction_cache 0 0
    reachable_initial_memory (by decide)

/-! ## What one call adds to the trace -/

theorem cache_lookup_eq (c : cache_t) (address off index tag : Nat) (set : set_t)
    (hdec : decode c address = some (off, index, tag)) (hset : c.sets[index]? = some set) :
    cache_lookup c address = scan_blocks set.blocks tag c.associativity.toNat 0 := by
  unfold cache_lookup
  simp only [hdec, hset]

theorem miss_counters_miss (c : cache_t) (w : Int) :
    (miss_counters c w).miss = c.miss + 1 := by
  unfold miss_counters
  split <;> rfl

theorem miss_counters_sets (c : cache_t) (w : Int) : (miss_counters c w).sets = c.sets := by
  unfold miss_counters
  split <;> rfl

theorem miss_counters_writeback (c : cache_t) (w : Int) :
    (miss_counters c w).writeback = c.writeback := by
  unfold miss_counters
  split <;> rfl

theorem hit_counters_miss (c : cache_t) (w : Int) : (hit_counters c w).miss = c.miss := by
  unfold hit_counters
  split <;> rfl

theorem cache_access_trace (fuel : Nat) : ∀ (m m' : memory_t) (ref : cache_ref) (address : Nat)
    (w : Int), cache_access fuel m ref address w = some m' →
    ∃ hit nested, m'.trace = m.trace ++ ⟨ref, address, w, hit⟩ :: nested ∧
      (∀ e ∈ nested, e.target = cache_ref.l2_cache ∧ e.is_write = 1) ∧
      nested.length + 1 ≤ fuel ∧
      (hit = true → nested = []) ∧
      ((m.get ref).writeback = 0 → nested = []) ∧
      (hit = true ↔ ∃ i, cache_lookup (m.get ref) address = some (some i)) ∧
      (ref ≠ cache_ref.l2_cache →
        (m'.get ref).miss = (m.get ref).miss + (if hit = true then 0 else 1)) := by
  induction fuel with
  | zero => intro m m' ref address w h; exact Option.noConfusion h
  | succ fuel ih =>
    intro m m' ref address w h
    obtain ⟨off, index, tag, set, hdec, hset, hcase⟩ := cache_access_inv _ _ _ _ _ _ h
    have hlook := cache_lookup_eq (m.get ref) address off index tag set hdec hset
    rcases hcase with ⟨i, block, set2, hscan, hblock, hupd, hm'⟩ |
      ⟨lru, victim, m2, set3, block3, set5, hscan, hlru, hvictim, hm2, hset3, hblock3, hupd, hm'⟩
    · subst hm'
      refine ⟨true, [], ?_, ?_, ?_, fun _ => rfl, fun _ => rfl, ?_, ?_⟩
      · rw [trace_put, trace_log]
      · intro e he; exact absurd he (List.not_mem_nil e)
      · simp
      · rw [hlook, hscan]
        exact ⟨fun _ => ⟨i, rfl⟩, fun _ => rfl⟩
      · intro _
        rw [get_put_same, if_pos rfl]
        show (hit_counters (m.get ref) w).miss = _
        rw [hit_counters_miss]; simp
    · have hnolook : ¬ ∃ i, cache_lookup (m.get ref) address = some (some i) := by
        rw [hlook, hscan]
        intro ⟨i, hi⟩
        exact absurd hi (by simp)
      by_cases hd : victim.dirty ≠ 0 ∧ (m.get ref).writeback ≠ 0
      · rw [if_pos hd] at hm2
        obtain ⟨h2, nested2, ht, hall, hlen, _, _, _, _⟩ := ih _ _ _ _ _ hm2
        subst hm'
        refine ⟨false, ⟨cache_ref.l2_cache, write_back_address victim.tag index, 1, h2⟩ :: nested2,
          ?_, ?_, ?_, fun hx => Bool.noConfusion hx, fun hx => absurd hx hd.2, ?_, ?_⟩
        · rw [trace_put, ht, trace_put, trace_log]
          simp
        · intro e he
          rcases List.mem_cons.mp he with heq | hmem
          · rw [heq]; exact ⟨rfl, rfl⟩
          · exact hall e hmem
        · simp only [List.length_cons]; omega
        · exact ⟨fun hx => Bool.noConfusion hx, fun hx => absurd hx hnolook⟩
        · intro hr
          rw [get_put_same]
          show (m2.get ref).miss = _
          rw [cache_access_frame _ _ _ _ _ _ hm2 ref hr hr, get_put_same, miss_counters_miss]
          simp
      · rw [if_neg hd] at hm2
        simp only [Option.some.injEq] at hm2
        subst hm2
        subst hm'
        refine ⟨false, [], ?_, ?_, ?_, fun _ => rfl, fun _ => rfl, ?_, ?_⟩
        · rw [trace_put, trace_put, trace_log]
        · intro e he; exact absurd he (List.not_mem_nil e)
        · simp
        · exact ⟨fun hx => Bool.noConfusion hx, fun hx => absurd hx hnolook⟩
        · intro _
          rw [get_put_same]
          show (((m.log ⟨ref, address, w, false⟩).put ref
            (miss_counters (m.get ref) w)).get ref).miss = _
          rw [get_put_same, miss_counters_miss]
          simp

theorem cache_access_statics (fuel : Nat) : ∀ (m m' : memory_t) (ref : cache_ref)
    (address : Nat) (w : Int), cache_access fuel m ref address w = some m' →
    m'.l1i_miss = m.l1i_miss ∧ m'.l1d_miss = m.l1d_miss ∧ m'.l2_miss = m.l2_miss ∧
    m'.instr_count = m.instr_count := by
  have hput : ∀ (x : memory_t) (r : cache_ref) (c : cache_t),
      (x.put r c).l1i_miss = x.l1i_miss ∧ (x.put r c).l1d_miss = x.l1d_miss ∧
      (x.put r c).l2_miss = x.l2_miss ∧ (x.put r c).instr_count = x.instr_count := by
    intro x r c
    cases r <;> exact ⟨rfl, rfl, rfl, rfl⟩
  induction fuel with
  | zero => intro m m' ref address w h; exact Option.noConfusion h
  | succ fuel ih =>
    intro m m' ref address w h
    obtain ⟨off, index, tag, set, hdec, hset, hcase⟩ := cache_access_inv _ _ _ _ _ _ h
    rcases hcase with ⟨i, block, set2, hscan, hblock, hupd, hm'⟩ |
      ⟨lru, victim, m2, set3, block3, set5, hscan, hlru, hvictim, hm2, hset3, hblock3, hupd, hm'⟩
    · subst hm'
      exact hput _ _ _
    · have h1 := hput (m.log ⟨ref, address, w, false⟩) ref (miss_counters (m.get ref) w)
      have h2 : m2.l1i_miss = m.l1i_miss ∧ m2.l1d_miss = m.l1d_miss ∧ m2.l2_miss = m.l2_miss ∧
          m2.instr_count = m.instr_count := by
        split at hm2
        · obtain ⟨a1, a2, a3, a4⟩ := ih _ _ _ _ _ hm2
          exact ⟨a1.trans h1.1, a2.trans h1.2.1, a3.trans h1.2.2.1, a4.trans h1.2.2.2⟩
        · simp only [Option.some.injEq] at hm2
          rw [← hm2]
          exact h1
      subst hm'
      obtain ⟨a1, a2, a3, a4⟩ := hput m2 ref
        { m2.get ref with sets := (m2.get ref).sets.set index set5 }
      exact ⟨a1.trans h2.1, a2.trans h2.2.1, a3.trans h2.2.2.1, a4.trans h2.2.2.2⟩

theorem run_reachable (fuel : Nat) (ops : List op_t) (m : memory_t)
    (h : run fuel initial_memory ops = some m) : reachable m :=
  run_preserves reachable (fun x n i d l hx => reachable.statics x n i d l hx) fuel ops
    (fun _ _ x x' ref w hx _ hstep => reachable.access fuel x x' ref _ w hx hstep)
    initial_memory m reachable_initial_memory h

theorem run_hierarchy_ok (fuel : Nat) (ops : List op_t)
    (haddr : ∀ op ∈ ops, op.address < 4294967296) (m : memory_t)
    (h : run fuel initial_memory ops = some m) : configured m ∧ l2_blocks_ok m :=
  run_preserves (fun x => configured x ∧ l2_blocks_ok x) hierarchy_statics fuel ops
    (fun op hop x x' ref w hx _ hstep =>
      hierarchy_access fuel x x' ref op.address w (haddr op hop) hx hstep)
    initial_memory m initial_memory_ok h

theorem configured_writeback (m : memory_t) (h : configured m) :
    m.l1_instruction_cache.writeback = 0 ∧ m.l1_data_cache.writeback = 1 ∧
    m.l2_cache.writeback = 1 := by
  obtain ⟨_, _, _, h1, _, _⟩ := h cache_ref.l1_instruction_cache
  obtain ⟨_, _, _, h2, _, _⟩ := h cache_ref.l1_data_cache
  obtain ⟨_, _, _, h3, _, _⟩ := h cache_ref.l2_cache
  exact ⟨h1.trans (by decide), h2.trans (by decide), h3.trans (by decide)⟩

/-! ## The miss test of `memory_fetch` -/

theorem memory_fetch_spec (fuel : Nat) (m m' : memory_t) (address : Nat)
    (hc : configured m) (hinv : m.l1i_miss = m.l1_instruction_cache.miss)
    (h : memory_fetch fuel m address = some m') :
    ∃ hit, (hit = true ↔ ∃ i, cache_lookup m.l1_instruction_cache address = some (some i)) ∧
      (hit = true →
        m'.trace = m.trace ++ [⟨cache_ref.l1_instruction_cache, address, 0, true⟩]) ∧
      (hit = false → ∃ h2 nested,
        m'.trace = m.trace ++ ⟨cache_ref.l1_instruction_cache, address, 0, false⟩ ::
          ⟨cache_ref.l2_cache, address, 0, h2⟩ :: nested ∧
        ∀ e ∈ nested, e.target = cache_ref.l2_cache ∧ e.is_write = 1) ∧
      m'.l1i_miss = m'.l1_instruction_cache.miss := by
  unfold memory_fetch at h
  split at h
  · exact Option.noConfusion h
  · rename_i m1 h1
    obtain ⟨hit, nested, ht, _, _, _, hwb, hiff, hmiss⟩ := cache_access_trace _ _ _ _ _ _ h1
    have hn : nested = [] := hwb (configured_writeback m hc).1
    subst hn
    have hmiss1 : m1.l1_instruction_cache.miss
        = m.l1_instruction_cache.miss + (if hit = true then 0 else 1) :=
      hmiss (by decide)
    have hst1 := (cache_access_statics _ _ _ _ _ _ h1).1
    split at h
    · exact Option.noConfusion h
    · rename_i m2 h2
      simp only [Option.some.injEq] at h
      subst h
      refine ⟨hit, hiff, ?_, ?_, ?_⟩
      · intro hh
        subst hh
        have hcond : ¬ (m1.l1_instruction_cache.miss > m1.l1i_miss) := by
          rw [hmiss1, hst1, hinv]; simp
        rw [if_neg hcond] at h2
        simp only [Option.some.injEq] at h2
        subst h2
        exact ht
      · intro hh
        subst hh
        have hcond : m1.l1_instruction_cache.miss > m1.l1i_miss := by
          rw [hmiss1, hst1, hinv]; simp
        rw [if_pos hcond] at h2
        obtain ⟨hit2, nested2, ht2, hall, _, _, _, _, _⟩ := cache_access_trace _ _ _ _ _ _ h2
        refine ⟨hit2, nested2, ?_, hall⟩
        show m2.trace = _
        rw [ht2]
        show m1.trace ++ _ = _
        rw [ht]
        simp
      · show m2.l1i_miss = m2.l1_instruction_cache.miss
        by_cases hcond : m1.l1_instruction_cache.miss > m1.l1i_miss
        · rw [if_pos hcond] at h2
          have hf := cache_access_frame _ _ _ _ _ _ h2 cache_ref.l1_instruction_cache
            (by decide) (by decide)
          have hs := (cache_access_statics _ _ _ _ _ _ h2).1
          change m2.l1_instruction_cache = m1.l1_instruction_cache at hf
          rw [hs, hf]
        · rw [if_neg hcond] at h2
          simp only [Option.some.injEq] at h2
          subst h2
          cases hit with
          | true =>
            rw [hmiss1, hst1, hinv]; simp
          | false =>
            exfalso
            apply hcond
            rw [hmiss1, hst1, hinv]; simp

theorem access_keeps_instruction_cache (fuel : Nat) (m m' : memory_t) (ref : cache_ref)
    (address : Nat) (w : Int) (hr : ref ≠ cache_ref.l1_instruction_cache)
    (h : cache_access fuel m ref address w = some m') :
    m'.l1_instruction_cache = m.l1_instruction_cache ∧ m'.l1i_miss = m.l1i_miss :=
  ⟨cache_access_frame _ _ _ _ _ _ h cache_ref.l1_instruction_cache (fun e => hr e.symm)
    (by decide), (cache_access_statics _ _ _ _ _ _ h).1⟩

theorem step_fetch_inv (fuel : Nat) (m m' : memory_t) (op : op_t) (hc : configured m)
    (hinv : m.l1i_miss = m.l1_instruction_cache.miss) (h : step fuel m op = some m') :
    m'.l1i_miss = m'.l1_instruction_cache.miss := by
  cases op with
  | fetch address =>
    obtain ⟨_, _, _, _, hx⟩ := memory_fetch_spec fuel m m' address hc hinv h
    exact hx
  | read address =>
    simp only [step, memory_read] at h
    split at h
    · exact Option.noConfusion h
    · rename_i m1 h1
      obtain ⟨f1, s1⟩ := access_keeps_instruction_cache _ _ _ _ _ _ (by decide) h1
      split at h
      · exact Option.noConfusion h
      · rename_i m3 h3
        simp only [Option.some.injEq] at h
        subst h
        show m3.l1i_miss = m3.l1_instruction_cache.miss
        have h3' : m3.l1i_miss = m1.l1i_miss ∧
            m3.l1_instruction_cache = m1.l1_instruction_cache := by
          split at h3
          · split at h3
            · exact Option.noConfusion h3
            · rename_i m2 h2
              obtain ⟨f2, s2⟩ := access_keeps_instruction_cache _ _ _ _ _ _ (by decide) h2
              split at h3
              · simp only [Option.some.injEq] at h3
                rw [← h3]
                exact ⟨s2, f2⟩
              · simp only [Option.some.injEq] at h3
                rw [← h3]
                exact ⟨s2, f2⟩
          · simp only [Option.some.injEq] at h3
            rw [← h3]
            exact ⟨rfl, rfl⟩
        rw [h3'.1, h3'.2, s1, f1, hinv]
  | write address =>
    simp only [step, memory_write] at h
    split at h
    · exact Option.noConfusion h
    · rename_i m1 h1
      obtain ⟨f1, s1⟩ := access_keeps_instruction_cache _ _ _ _ _ _ (by decide) h1
      split at h
      · exact Option.noConfusion h
      · rename_i m2 h2
        simp only [Option.some.injEq] at h
        subst h
        show m2.l1i_miss = m2.l1_instruction_cache.miss
        have h2' : m2.l1i_miss = m1.l1i_miss ∧
            m2.l1_instruction_cache = m1.l1_instruction_cache := by
          split at h2
          · obtain ⟨f2, s2⟩ := access_keeps_instruction_cache _ _ _ _ _ _ (by decide) h2
            exact ⟨s2, f2⟩
          · simp only [Option.some.injEq] at h2
            rw [← h2]
            exact ⟨rfl, rfl⟩
        rw [h2'.1, h2'.2, s1, f1, hinv]

theorem step_configured (fuel : Nat) (m m' : memory_t) (op : op_t) (hc : configured m)
    (h : step fuel m op = some m') : configured m' :=
  step_preserves configured
    (fun x n i d l hx r => by have := hx r; cases r <;> exact this) fuel op
    (fun x x' ref w hx _ hstep => configured_access fuel x x' ref op.address w hx hstep)
    m m' hc h

theorem run_fetch_inv (fuel : Nat) (ops : List op_t) : ∀ (m m' : memory_t),
    configured m → m.l1i_miss = m.l1_instruction_cache.miss → run fuel m ops = some m' →
    m'.l1i_miss = m'.l1_instruction_cache.miss := by
  induction ops with
  | nil =>
    intro m m' _ hinv h
    simp only [run, Option.some.injEq] at h
    rw [← h]; exact hinv
  | cons op ops ih =>
    intro m m' hc hinv h
    simp only [run] at h
    split at h
    · exact Option.noConfusion h
    · rename_i m1 h1
      exact ih m1 m' (step_configured fuel m m1 op hc h1)
        (step_fetch_inv fuel m m1 op hc hinv h1) h

/-! ## Dirty blocks and the write-back recursion -/

theorem dirty_valid_erase (b b' : block_t) (h : erase_age b = erase_age b')
    (hb : b'.dirty ≠ 0 → b'.valid ≠ 0) : b.dirty ≠ 0 → b.valid ≠ 0 := by
  simp only [erase_age, block_t.mk.injEq] at h
  obtain ⟨_, hv, hd, _⟩ := h
  rw [hv, hd]
  exact hb

theorem dirty_valid_set (c c' : cache_t) (index : Nat) (s : set_t)
    (hsets : c'.sets = c.sets.set index s) (hc : dirty_valid c)
    (hs : ∀ b ∈ s.blocks, b.dirty ≠ 0 → b.valid ≠ 0) : dirty_valid c' := by
  intro s' hs'
  rw [hsets] at hs'
  rcases List.mem_or_eq_of_mem_set hs' with hmem | heq
  · exact hc s' hmem
  · rw [heq]; exact hs

theorem cache_access_dirty_valid (fuel : Nat) : ∀ (m m' : memory_t) (ref : cache_ref)
    (address : Nat) (w : Int), (∀ r, dirty_valid (m.get r)) →
    cache_access fuel m ref address w = some m' → ∀ r, dirty_valid (m'.get r) := by
  induction fuel with
  | zero => intro m m' ref address w _ h; exact Option.noConfusion h
  | succ fuel ih =>
    intro m m' ref address w hm h r
    obtain ⟨off, index, tag, set, hdec, hset, hcase⟩ := cache_access_inv _ _ _ _ _ _ h
    have hsetok : ∀ b ∈ set.blocks, b.dirty ≠ 0 → b.valid ≠ 0 :=
      hm ref set (List.getElem?_mem hset)
    rcases hcase with ⟨i, block, set2, hscan, hblock, hupd, hm'⟩ |
      ⟨lru, victim, m2, set3, block3, set5, hscan, hlru, hvictim, hm2, hset3, hblock3, hupd, hm'⟩
    · subst hm'
      by_cases hr : r = ref
      · subst hr
        rw [get_put_same]
        refine dirty_valid_set (m.get r) _ index set2 rfl (hm r) ?_
        refine blocks_forall_of_erase _ dirty_valid_erase
          (update_block_ages_erase _ _ _ _ hupd) ?_
        unfold mark_dirty
        split
        · intro b hb
          rcases List.mem_or_eq_of_mem_set hb with hmem | heq
          · exact hsetok b hmem
          · obtain ⟨b0, hb0, hv, _⟩ := scan_blocks_found _ _ _ _ _ hscan
            rw [hblock] at hb0
            simp only [Option.some.injEq] at hb0
            subst hb0
            rw [heq]
            exact fun _ => hv
        · exact hsetok
      · rw [get_put_other _ _ _ _ hr, get_log]
        exact hm r
    · have h1 : ∀ r, dirty_valid (((m.log ⟨ref, address, w, false⟩).put ref
          (miss_counters (m.get ref) w)).get r) := by
        intro r
        by_cases hr : r = ref
        · subst hr
          rw [get_put_same]
          intro s hs'
          rw [miss_counters_sets] at hs'
          exact hm r s hs'
        · rw [get_put_other _ _ _ _ hr, get_log]
          exact hm r
      have h2 : ∀ r, dirty_valid (m2.get r) := by
        split at hm2
        · exact ih _ _ _ _ _ h1 hm2
        · simp only [Option.some.injEq] at hm2
          rw [← hm2]
          exact h1
      subst hm'
      by_cases hr : r = ref
      · subst hr
        rw [get_put_same]
        refine dirty_valid_set (m2.get r) _ index set5 rfl (h2 r) ?_
        refine blocks_forall_of_erase _ dirty_valid_erase
          (update_block_ages_erase _ _ _ _ hupd) ?_
        intro b hb
        rcases List.mem_or_eq_of_mem_set hb with hmem | heq
        · exact h2 r set3 (List.getElem?_mem hset3) b hmem
        · rw [heq]
          exact fun _ => Int.one_ne_zero
      · rw [get_put_other _ _ _ _ hr]
        exact h2 r

theorem cache_init_dirty_valid (cachesize blocksize associativity writeback : Int)
    (c : cache_t) (h : cache_init cachesize blocksize associativity writeback = some c) :
    dirty_valid c := by
  intro s hs b hb hd
  exact absurd (cache_init_all_clean _ _ _ _ c h s hs b hb) hd

theorem reachable_dirty_valid (m : memory_t) (h : reachable m) :
    ∀ r, dirty_valid (m.get r) := by
  induction h with
  | init m s1 b1 a1 w1 s2 b2 a2 w2 s3 b3 a3 w3 h1 h2 h3 =>
    intro r
    cases r
    · exact cache_init_dirty_valid _ _ _ _ _ h1
    · exact cache_init_dirty_valid _ _ _ _ _ h2
    · exact cache_init_dirty_valid _ _ _ _ _ h3
  | access fuel m m' ref address is_write _ hstep ih =>
    exact cache_access_dirty_valid _ _ _ _ _ _ ih hstep
  | statics m n i d l _ ih =>
    intro r
    have := ih r
    cases r <;> exact this

theorem accesses_to_append (tr delta : List access_t) (r : cache_ref)
    (h : ∀ e ∈ delta, e.target = r) :
    accesses_to (tr ++ delta) r = accesses_to tr r + delta.length := by
  unfold accesses_to
  rw [List.countP_append]
  congr 1
  rw [List.countP_eq_length]
  intro e he
  simp [h e he]

theorem counter_total_accounted (m : memory_t) (h : accounted m) (r : cache_ref) :
    counter_total (m.get r) = accesses_to m.trace r := by
  have e1 := h r false true
  have e2 := h r false false
  have e3 := h r true true
  have e4 := h r true false
  simp only [counter] at e1 e2 e3 e4
  unfold counter_total
  rw [e1, e2, e3, e4, ← tally_partition]
  push_cast
  rfl

theorem run_accounted (fuel : Nat) (ops : List op_t) (m : memory_t)
    (h : run fuel initial_memory ops = some m) : accounted m :=
  run_preserves accounted accounted_statics fuel ops
    (fun _ _ x x' r w hx _ hstep => cache_access_accounted fuel x x' r _ w hx hstep)
    initial_memory m (memory_init_accounted _ memory_init_program_start) h

theorem l2_decode_write_back (m : memory_t) (hc : configured m) (tag index : Nat)
    (hi : index < 64) :
    decode m.l2_cache (write_back_address tag index)
      = some (write_back_address tag index &&& 511, index / 8, tag % 131072) := by
  obtain ⟨hb, hn, _, _, _, _⟩ := configured_facts m hc cache_ref.l2_cache
  have hdec := decode_configured (m.get cache_ref.l2_cache) 64 (write_back_address tag index)
    hb hn (by decide) (by decide)
  have hw := write_back_address_eq tag index (by omega)
  have e1 : write_back_address tag index / 512 % 64 = index / 8 := by rw [hw]; omega
  have e2 : write_back_address tag index / (512 * 64) = tag % 131072 := by rw [hw]; omega
  rw [e1, e2] at hdec
  exact hdec

theorem l2_miss_dirty_step (fuel : Nat) (m m' : memory_t) (address : Nat) (w : Int)
    (hc : configured m) (hs0 : slot0_only m.l2_cache) (set : set_t) (victim : block_t)
    (hset : m.l2_cache.sets[address / 512 % 64]? = some set)
    (hmiss : cache_lookup m.l2_cache address = some none)
    (hvictim : set.blocks[0]? = some victim) (hd : victim.dirty ≠ 0)
    (h : cache_access (fuel + 1) m cache_ref.l2_cache address w = some m') :
    ∃ m2, cache_access fuel
        ((m.log ⟨cache_ref.l2_cache, address, w, false⟩).put cache_ref.l2_cache
          (miss_counters m.l2_cache w))
        cache_ref.l2_cache (write_back_address victim.tag (address / 512 % 64)) 1 = some m2 ∧
      m'.trace = m2.trace := by
  obtain ⟨hb, hn, _, _, _, _⟩ := configured_facts m hc cache_ref.l2_cache
  have hdec0 := decode_configured (m.get cache_ref.l2_cache) 64 address hb hn
    (by decide) (by decide)
  obtain ⟨off, index, tag, set', hdec, hset', hcase⟩ := cache_access_inv _ _ _ _ _ _ h
  rw [hdec0] at hdec
  simp only [Option.some.injEq, Prod.mk.injEq] at hdec
  obtain ⟨_, hidx, htag⟩ := hdec
  subst hidx
  subst htag
  have hse : set' = set := by
    have : m.l2_cache.sets[address / 512 % 64]? = some set' := hset'
    rw [hset] at this
    simp only [Option.some.injEq] at this
    exact this.symm
  subst hse
  have hlook := cache_lookup_eq (m.get cache_ref.l2_cache) address _ _ _ set' hdec0 hset'
  rcases hcase with ⟨i, block, set2, hscan, _, _, _⟩ |
    ⟨lru, victim', m2, set3, block3, set5, hscan, hlru, hvictim', hm2, _, _, _, hm'⟩
  · exfalso
    have : cache_lookup m.l2_cache address = some (some i) := by
      show cache_lookup (m.get cache_ref.l2_cache) address = _
      rw [hlook]
      exact hscan
    rw [hmiss] at this
    exact absurd this (by simp)
  · have hl : lru = 0 :=
      find_lru_slot0 set' _ lru (hs0 set' (List.getElem?_mem hset')) hlru
    subst hl
    rw [hvictim] at hvictim'
    simp only [Option.some.injEq] at hvictim'
    subst hvictim'
    have hwb : (m.get cache_ref.l2_cache).writeback ≠ 0 := by
      show m.l2_cache.writeback ≠ 0
      rw [(configured_writeback m hc).2.2]
      decide
    rw [if_pos ⟨hd, hwb⟩] at hm2
    refine ⟨m2, hm2, ?_⟩
    rw [hm', trace_put]

theorem l2_set0_write_back_hits (fuel : Nat) (m m2 : memory_t) (address : Nat) (w : Int)
    (hc : configured m) (hok : l2_blocks_ok m) (set : set_t) (victim : block_t)
    (hset : m.l2_cache.sets[0]? = some set) (hvictim : set.blocks[0]? = some victim)
    (hd : victim.dirty ≠ 0)
    (h : cache_access fuel
        ((m.log ⟨cache_ref.l2_cache, address, w, false⟩).put cache_ref.l2_cache
          (miss_counters m.l2_cache w))
        cache_ref.l2_cache (write_back_address victim.tag 0) 1 = some m2) :
    m2.trace = m.trace ++ [⟨cache_ref.l2_cache, address, w, false⟩,
      ⟨cache_ref.l2_cache, write_back_address victim.tag 0, 1, true⟩] := by
  obtain ⟨hdv, htag⟩ := hok set (List.getElem?_mem hset) victim (List.getElem?_mem hvictim)
  obtain ⟨m1, hm1⟩ : ∃ m1, m1 = (m.log ⟨cache_ref.l2_cache, address, w, false⟩).put
      cache_ref.l2_cache (miss_counters (m.get cache_ref.l2_cache) w) := ⟨_, rfl⟩
  have hc1 : configured m1 := by
    rw [hm1]
    exact configured_put_miss m cache_ref.l2_cache ⟨cache_ref.l2_cache, address, w, false⟩ w hc
  have h : cache_access fuel m1 cache_ref.l2_cache (write_back_address victim.tag 0) 1
      = some m2 := by
    rw [hm1]; exact h
  have hdec := l2_decode_write_back m1 hc1 victim.tag 0 (by decide)
  have ht : victim.tag % 131072 = victim.tag := Nat.mod_eq_of_lt htag
  rw [ht] at hdec
  have hsets1 : (m1.get cache_ref.l2_cache).sets[0]? = some set := by
    rw [hm1, get_put_same, miss_counters_sets]
    exact hset
  obtain ⟨_, _, ha, _, hblocks, _⟩ := configured_facts m1 hc1 cache_ref.l2_cache
  have hsl : set.blocks.length = 8 := hblocks set (List.getElem?_mem hsets1)
  have hat : (m1.get cache_ref.l2_cache).associativity.toNat = 8 := by
    rw [ha]; rfl
  obtain ⟨j, hj⟩ := scan_blocks_hits victim.tag set.blocks
    (m1.get cache_ref.l2_cache).associativity.toNat 0 0 victim (by omega)
    (Nat.zero_le _) (by omega) hvictim (hdv hd) rfl
  have hlook : cache_lookup (m1.get cache_ref.l2_cache) (write_back_address victim.tag 0)
      = some (some j) := by
    exact (cache_lookup_eq (m1.get cache_ref.l2_cache) _ _ _ _ set hdec hsets1).trans hj
  obtain ⟨hit2, nested2, ht2, _, _, hnil, _, hiff, _⟩ := cache_access_trace _ _ _ _ _ _ h
  have hh : hit2 = true := hiff.mpr ⟨j, hlook⟩
  subst hh
  rw [hnil rfl] at ht2
  rw [ht2, hm1, trace_put, trace_log]
  simp

theorem miss_dirty_nests (fuel : Nat) (m m' : memory_t) (ref : cache_ref) (address : Nat)
    (w : Int) (off index tag lru : Nat) (set : set_t) (victim : block_t)
    (hdec : decode (m.get ref) address = some (off, index, tag))
    (hset : (m.get ref).sets[index]? = some set)
    (hmiss : cache_lookup (m.get ref) address = some none)
    (hlru : find_lru_block_index set (m.get ref).associativity = some lru)
    (hvictim : set.blocks[lru]? = some victim) (hd : victim.dirty ≠ 0)
    (hwb : (m.get ref).writeback ≠ 0)
    (h : cache_access fuel m ref address w = some m') :
    ∃ hit nested, m'.trace = m.trace ++ ⟨ref, address, w, false⟩ ::
        ⟨cache_ref.l2_cache, write_back_address victim.tag index, 1, hit⟩ :: nested ∧
      ∀ e ∈ nested, e.target = cache_ref.l2_cache ∧ e.is_write = 1 := by
  cases fuel with
  | zero => exact Option.noConfusion h
  | succ fuel =>
    obtain ⟨off', index', tag', set', hdec', hset', hcase⟩ := cache_access_inv _ _ _ _ _ _ h
    rw [hdec] at hdec'
    simp only [Option.some.injEq, Prod.mk.injEq] at hdec'
    obtain ⟨hoff, hidx, htag⟩ := hdec'
    subst hoff
    subst hidx
    subst htag
    rw [hset] at hset'
    simp only [Option.some.injEq] at hset'
    subst hset'
    have hlook := cache_lookup_eq (m.get ref) address off index tag set hdec hset
    rcases hcase with ⟨i, block, set2, hscan, _, _, _⟩ |
      ⟨lru', victim', m2, set3, block3, set5, hscan, hlru', hvictim', hm2, _, _, _, hm'⟩
    · exfalso
      rw [hlook, hscan] at hmiss
      exact absurd hmiss (by simp)
    · rw [hlru] at hlru'
      simp only [Option.some.injEq] at hlru'
      subst hlru'
      rw [hvictim] at hvictim'
      simp only [Option.some.injEq] at hvictim'
      subst hvictim'
      rw [if_pos ⟨hd, hwb⟩] at hm2
      obtain ⟨hit2, nested2, ht2, hall, _, _, _, _, _⟩ := cache_access_trace _ _ _ _ _ _ hm2
      refine ⟨hit2, nested2, ?_, hall⟩
      rw [hm', trace_put, ht2, trace_put, trace_log]
      simp

/-! ## Statistics and initialisation -/

theorem ratio_guard (h t : Int) (hh : 0 ≤ h) (ht : h ≤ t) :
    ∃ q, (if t = 0 then some (0 : ℚ) else double_div h t) = some q ∧ 0 ≤ q ∧ q ≤ 1 ∧
      (t = 0 → q = 0) ∧ (t ≠ 0 → q = (h : ℚ) / (t : ℚ)) := by
  by_cases h0 : t = 0
  · exact ⟨0, if_pos h0, le_refl _, zero_le_one, fun _ => rfl, fun hne => absurd h0 hne⟩
  · have htpos : (0 : ℚ) < (t : ℚ) := by
      have : 0 < t := lt_of_le_of_ne (le_trans hh ht) (fun e => h0 e.symm)
      exact_mod_cast this
    have hhq : (0 : ℚ) ≤ (h : ℚ) := by exact_mod_cast hh
    have hle : (h : ℚ) ≤ (t : ℚ) := by exact_mod_cast ht
    refine ⟨(h : ℚ) / (t : ℚ), ?_, div_nonneg hhq (le_of_lt htpos),
      (div_le_one htpos).mpr hle, fun he => absurd he h0, fun _ => rfl⟩
    rw [if_neg h0]
    unfold double_div
    rw [if_neg h0]

/-! ## The claims of the specification -/

/-- C1, the code at the failing input: after `memory_fetch(0)` set 0 of the
4-way instruction L1 holds tag 0 in block 0 and three invalid blocks;
`find_lru_block_index` on that set returns block 0, the only valid one; after
`memory_fetch(0x2000)` (same set, tag 1) tag 0 is gone and the three invalid
blocks are untouched. -/
theorem miss_evicts_valid_block_despite_invalid_ones :
    (run 4 initial_memory [op_t.fetch 0]).map (fun m => m.l1_instruction_cache.sets[0]?)
      = some (some { blocks := [{ tag := 0, valid := 1, dirty := 0, age := 0 },
                                block_init, block_init, block_init] }) ∧
    find_lru_block_index { blocks := [{ tag := 0, valid := 1, dirty := 0, age := 0 },
                                      block_init, block_init, block_init] } 4 = some 0 ∧
    (run 4 initial_memory [op_t.fetch 0, op_t.fetch 8192]).map
        (fun m => m.l1_instruction_cache.sets[0]?)
      = some (some { blocks := [{ tag := 1, valid := 1, dirty := 0, age := 0 },
                                block_init, block_init, block_init] }) := by
  decide

/-- C2, the code at the failing input: five fetches with the distinct tags
0..4 of set 0 of the 4-way instruction L1 leave tag 4 alone in the set, and
the fetch of the second tag that follows is a miss. -/
theorem full_set_keeps_only_last_tag :
    (run 4 initial_memory [op_t.fetch 0, op_t.fetch 8192, op_t.fetch 16384, op_t.fetch 24576,
        op_t.fetch 32768]).map (fun m => m.l1_instruction_cache.sets[0]?)
      = some (some { blocks := [{ tag := 4, valid := 1, dirty := 0, age := 0 },
                                block_init, block_init, block_init] }) ∧
    (run 4 initial_memory [op_t.fetch 0, op_t.fetch 8192, op_t.fetch 16384, op_t.fetch 24576,
        op_t.fetch 32768, op_t.fetch 8192]).map
        (fun m => (m.trace.filter
          (fun e => decide (e.target = cache_ref.l1_instruction_cache))).map
            (fun e => (e.address, e.hit)))
      = some [(0, false), (8192, false), (16384, false), (24576, false), (32768, false),
              (8192, false)] := by
  decide

/-- C3: in every state reachable from initialisation, when a `cache_access`
misses (the lookup finds no valid block with the tag) and returns, an
immediately following `cache_access` to the same address on the same cache,
of either access type and with any positive fuel, returns and is a hit: it
adds one to `write_hit` (a write) or to `read_hit` (a read), leaves
`read_miss`, `write_miss` and `miss` unchanged and issues no further access. -/
theorem miss_then_hit (m : memory_t) (hr : reachable m) (fuel fuel2 : Nat) (ref : cache_ref)
    (address : Nat) (w1 w2 : Int) (m1 : memory_t)
    (hmiss : cache_lookup (m.get ref) address = some none)
    (h1 : cache_access fuel m ref address w1 = some m1) :
    ∃ m2, cache_access (fuel2 + 1) m1 ref address w2 = some m2 ∧
      (m2.get ref).read_miss = (m1.get ref).read_miss ∧
      (m2.get ref).write_miss = (m1.get ref).write_miss ∧
      (m2.get ref).miss = (m1.get ref).miss ∧
      (m2.get ref).read_hit = (m1.get ref).read_hit + (if w2 ≠ 0 then 0 else 1) ∧
      (m2.get ref).write_hit = (m1.get ref).write_hit + (if w2 ≠ 0 then 1 else 0) ∧
      m2.trace = m1.trace ++ [⟨ref, address, w2, true⟩] := by
  have hok : shape_ok (m1.get ref) :=
    reachable_shape_ok m1 (reachable.access fuel m m1 ref address w1 hr h1) ref
  have hsh : same_shape (m.get ref) (m1.get ref) := cache_access_shape _ _ _ _ _ _ h1 ref
  cases fuel with
  | zero => exact Option.noConfusion h1
  | succ fuel =>
    obtain ⟨off, index, tag, set, hdec, hset, hcase⟩ := cache_access_inv _ _ _ _ _ _ h1
    have hscan0 : scan_blocks set.blocks tag (m.get ref).associativity.toNat 0 = some none := by
      unfold cache_lookup at hmiss
      simp only [hdec, hset] at hmiss
      exact hmiss
    rcases hcase with ⟨i, block, set2, hscan, _, _, _⟩ |
      ⟨lru, victim, m2, set3, block3, set5, _, _, _, _, hset3, hblock3, hupd, hm1⟩
    · rw [hscan0] at hscan
      exact absurd hscan (by simp)
    · have hget : m1.get ref = { m2.get ref with sets := (m2.get ref).sets.set index set5 } := by
        rw [hm1, get_put_same]
      have hdec1 : decode (m1.get ref) address = some (off, index, tag) := by
        rw [decode_same_shape hsh]; exact hdec
      have hassoc : (m1.get ref).associativity = (m2.get ref).associativity := by
        rw [hget]
      have hset1 : (m1.get ref).sets[index]? = some set5 := by
        rw [hget]
        show ((m2.get ref).sets.set index set5)[index]? = some set5
        rw [List.getElem?_set_self (getElem?_lt_length hset3)]
      have hlen5 : set5.blocks.length = (m1.get ref).associativity.toNat :=
        hok set5 (List.getElem?_mem hset1)
      have hlenI : (install set3 lru block3 tag w1).blocks.length = set5.blocks.length :=
        (update_block_ages_length _ _ _ _ hupd).symm
      have hlru : lru < (install set3 lru block3 tag w1).blocks.length := by
        show lru < (set3.blocks.set lru _).length
        rw [List.length_set]
        exact getElem?_lt_length hblock3
      have hinst : (install set3 lru block3 tag w1).blocks[lru]?
          = some { block3 with tag := tag, valid := 1, dirty := w1 } := by
        show (set3.blocks.set lru _)[lru]? = _
        rw [List.getElem?_set_self (getElem?_lt_length hblock3)]
      obtain ⟨j, hj⟩ := scan_blocks_hits tag (install set3 lru block3 tag w1).blocks
        (m1.get ref).associativity.toNat 0 lru
        { block3 with tag := tag, valid := 1, dirty := w1 }
        (by omega) (Nat.zero_le _) (by omega) hinst Int.one_ne_zero rfl
      have hscan1 : scan_blocks set5.blocks tag (m1.get ref).associativity.toNat 0
          = some (some j) := by
        rw [scan_blocks_congr tag _ 0 _ _ (update_block_ages_erase _ _ _ _ hupd)]
        exact hj
      obtain ⟨b, hb, _, _⟩ := scan_blocks_found tag set5.blocks _ 0 j hscan1
      obtain ⟨set6, hset6⟩ := update_block_ages_total (mark_dirty set5 j b w2)
        (m1.get ref).associativity j
        (by rw [mark_dirty_length]; omega)
        (by rw [mark_dirty_length]; exact getElem?_lt_length hb)
      refine ⟨_, cache_access_hit fuel2 m1 ref address w2 off index tag j set5 set6 b
        hdec1 hset1 hscan1 hb hset6, ?_⟩
      rw [get_put_same]
      obtain ⟨f1, f2, f3, f4, f5⟩ := hit_counters_fields (m1.get ref) w2
        ((m1.get ref).sets.set index set6)
      refine ⟨f1, f2, f3, f4, f5, ?_⟩
      rw [trace_put, trace_log]

/-- Witness of C3: after a write to 0x1000 on the data L1, a read of 0x2000
misses and evicts the dirty block (with a write-back to L2); the write to
0x2000 that follows hits. -/
theorem miss_then_hit_witness :
    ∃ m2, cache_access 1
        ((cache_access 2
          ((cache_access 1 initial_memory cache_ref.l1_data_cache 4096 1).getD initial_memory)
          cache_ref.l1_data_cache 8192 0).getD initial_memory)
        cache_ref.l1_data_cache 8192 1 = some m2 ∧
      (m2.get cache_ref.l1_data_cache).read_miss = 1 ∧
      (m2.get cache_ref.l1_data_cache).write_miss = 1 ∧
      (m2.get cache_ref.l1_data_cache).miss = 2 ∧
      (m2.get cache_ref.l1_data_cache).read_hit = 0 ∧
      (m2.get cache_ref.l1_data_cache).write_hit = 1 ∧
      m2.trace =
        [⟨cache_ref.l1_data_cache, 4096, 1, false⟩, ⟨cache_ref.l1_data_cache, 8192, 0, false⟩,
         ⟨cache_ref.l2_cache, 32768, 1, false⟩, ⟨cache_ref.l1_data_cache, 8192, 1, true⟩] :=
  miss_then_hit
    ((cache_access 1 initial_memory cache_ref.l1_data_cache 4096 1).getD initial_memory)
    (reachable.access 1 initial_memory _ cache_ref.l1_data_cache 4096 1
      (reachable.init initial_memory (32 * 1024) 512 4 0 (32 * 1024) 512 8 1 (256 * 1024) 512 8 1
        (by decide) (by decide) (by decide))
      (by decide))
    2 0 cache_ref.l1_data_cache 8192 0 1
    ((cache_access 2
      ((cache_access 1 initial_memory cache_ref.l1_data_cache 4096 1).getD initial_memory)
      cache_ref.l1_data_cache 8192 0).getD initial_memory)
    (by decide) (by decide)

/-- C5: for every address (32-bit or not) and every cache whose blocksize is
a power of two `2 ^ k`, whose numsets is positive and whose product
`blocksize * numsets` is representable as an `int`, the decomposition at the
top of `cache_access` is defined, `offset` equals `address mod blocksize`, and
`tag * numsets * blocksize + index * blocksize + offset = address`. -/
theorem decode_round_trip (cache : cache_t) (address k : Nat)
    (hbs : cache.blocksize = 2 ^ k) (hns : 0 < cache.numsets)
    (hrep : cache.blocksize * cache.numsets ≤ 2147483647) :
    ∃ offset index tag, decode cache address = some (offset, index, tag) ∧
      (offset : Int) = (address : Int) % cache.blocksize ∧
      (tag : Int) * cache.numsets * cache.blocksize + (index : Int) * cache.blocksize
        + (offset : Int) = (address : Int) := by
  obtain ⟨N, hN⟩ : ∃ N : Nat, cache.numsets = (N : Int) :=
    ⟨cache.numsets.toNat, (Int.toNat_of_nonneg (le_of_lt hns)).symm⟩
  have hNpos : 0 < N := by rw [hN] at hns; exact_mod_cast hns
  have hBpos : 0 < 2 ^ k := Nat.two_pow_pos k
  have hprod : 2 ^ k * N ≤ 2147483647 := by
    rw [hbs, hN] at hrep
    exact_mod_cast hrep
  have hB : 2 ^ k < 4294967296 := by
    have : 2 ^ k * 1 ≤ 2 ^ k * N := Nat.mul_le_mul_left _ hNpos
    omega
  have hNlt : N < 4294967296 := by
    have : 1 * N ≤ 2 ^ k * N := Nat.mul_le_mul_right _ hBpos
    omega
  have u1 : to_unsigned cache.blocksize = 2 ^ k := by
    rw [hbs]
    exact_mod_cast to_unsigned_natCast (2 ^ k) hB
  have u2 : to_unsigned cache.numsets = N := by
    rw [hN]; exact to_unsigned_natCast N hNlt
  have u3 : to_unsigned (cache.blocksize * cache.numsets) = 2 ^ k * N := by
    rw [hbs, hN]
    exact_mod_cast to_unsigned_natCast (2 ^ k * N) (by omega)
  have u4 : to_unsigned (cache.blocksize - 1) = 2 ^ k - 1 := by
    rw [hbs]
    have : ((2 : Int) ^ k - 1) = ((2 ^ k - 1 : Nat) : Int) := by
      rw [Nat.cast_sub hBpos]; norm_cast
    rw [this]
    exact to_unsigned_natCast _ (by omega)
  have hne : ¬ (to_unsigned cache.blocksize = 0 ∨ to_unsigned cache.numsets = 0
      ∨ to_unsigned (cache.blocksize * cache.numsets) = 0) := by
    rw [u1, u2, u3]
    have : 0 < 2 ^ k * N := Nat.mul_pos hBpos hNpos
    omega
  refine ⟨address &&& (2 ^ k - 1), (address / 2 ^ k) % N, address / (2 ^ k * N), ?_, ?_, ?_⟩
  · unfold decode
    rw [if_neg hne, u1, u2, u3, u4]
  · rw [Nat.and_pow_two_sub_one_eq_mod, hbs]
    norm_cast
  · rw [Nat.and_pow_two_sub_one_eq_mod, hbs, hN]
    have e1 := Nat.div_add_mod address (2 ^ k)
    have e2 := Nat.div_add_mod (address / 2 ^ k) N
    have e3 : address / 2 ^ k / N = address / (2 ^ k * N) := Nat.div_div_eq_div_mul _ _ _
    rw [e3] at e2
    have : address / (2 ^ k * N) * N * 2 ^ k + address / 2 ^ k % N * 2 ^ k + address % 2 ^ k
        = address := by
      calc address / (2 ^ k * N) * N * 2 ^ k + address / 2 ^ k % N * 2 ^ k + address % 2 ^ k
          = 2 ^ k * (N * (address / (2 ^ k * N)) + address / 2 ^ k % N) + address % 2 ^ k := by
            ring
        _ = 2 ^ k * (address / 2 ^ k) + address % 2 ^ k := by rw [e2]
        _ = address := e1
    exact_mod_cast this

/-- Witness of C5 on the data L1 of memory.c (blocksize 512, 8 sets) at
address 0x12345. -/
theorem decode_round_trip_witness :
    ∃ offset index tag,
      decode { sets := [], blocksize := 512, cachesize := 32768, numsets := 8, writeback := 1,
               associativity := 8, hit := 0, miss := 0, read_hit := 0, read_miss := 0,
               write_hit := 0, write_miss := 0 } 74565 = some (offset, index, tag) ∧
      (offset : Int) = (74565 : Nat) % (512 : Int) ∧
      (tag : Int) * 8 * 512 + (index : Int) * 512 + (offset : Int) = (74565 : Nat) :=
  decode_round_trip
    { sets := [], blocksize := 512, cachesize := 32768, numsets := 8, writeback := 1,
      associativity := 8, hit := 0, miss := 0, read_hit := 0, read_miss := 0,
      write_hit := 0, write_miss := 0 } 74565 9 (by decide) (by decide) (by decide)

/-- C6, the code at the failing input: `memory_write(0x1000)` leaves the
dirty block of tag 1 in set 0 of the data L1 (8 sets of 512-byte blocks, so
the block starts at 1 * (8 * 512) + 0 * 512 = 0x1000); `memory_read(0x2000)`
evicts it, and the synthetic write reaches L2 at address 0x8000. -/
theorem write_back_address_from_fixed_shifts :
    (run 4 initial_memory [op_t.write 4096]).map
        (fun m => m.l1_data_cache.sets[0]?.map (fun s => s.blocks[0]?))
      = some (some (some { tag := 1, valid := 1, dirty := 1, age := 0 })) ∧
    (run 4 initial_memory [op_t.write 4096, op_t.read 8192]).map (fun m => m.trace)
      = some [⟨cache_ref.l1_data_cache, 4096, 1, false⟩, ⟨cache_ref.l2_cache, 4096, 1, false⟩,
              ⟨cache_ref.l1_data_cache, 8192, 0, false⟩, ⟨cache_ref.l2_cache, 32768, 1, false⟩,
              ⟨cache_ref.l2_cache, 8192, 0, false⟩] ∧
    write_back_address 1 0 = 32768 ∧
    initial_memory.l1_data_cache.numsets = 8 ∧ initial_memory.l1_data_cache.blocksize = 512 := by
  decide

/-- C7, counterexample: on the instruction L1 of the initial hierarchy,
which `cache_init` set up with writeback 0, one write access to address 0
returns and leaves block 0 of set 0 with `dirty = 1`. -/
theorem write_through_block_becomes_dirty :
    cache_init (32 * 1024) 512 4 0 = some initial_memory.l1_instruction_cache ∧
    initial_memory.l1_instruction_cache.writeback = 0 ∧
    (cache_access 1 initial_memory cache_ref.l1_instruction_cache 0 1).map
        (fun m => m.l1_instruction_cache.sets[0]?.map (fun s => s.blocks[0]?))
      = some (some (some { tag := 0, valid := 1, dirty := 1, age := 0 })) := by
  decide

/-- C7, amended: for every cache initialised by `cache_init` (with writeback
0, or any other value of the flag) and every sequence of read accesses
(`cache_access` with `is_write = 0`) on it, no block of that cache has
`dirty != 0` afterwards. -/
theorem read_only_cache_stays_clean (cachesize blocksize associativity writeback : Int)
    (m : memory_t) (ref : cache_ref)
    (hinit : cache_init cachesize blocksize associativity writeback = some (m.get ref))
    (fuel : Nat) (accesses : List (Nat × Int)) (hread : ∀ p ∈ accesses, p.2 = 0)
    (m' : memory_t) (h : access_all fuel m ref accesses = some m') :
    all_clean (m'.get ref) := by
  have hc : all_clean (m.get ref) := cache_init_all_clean _ _ _ _ _ hinit
  clear hinit
  induction accesses generalizing m with
  | nil =>
    simp only [access_all, Option.some.injEq] at h
    rw [← h]; exact hc
  | cons p rest ih =>
    obtain ⟨address, is_write⟩ := p
    have hw : is_write = 0 := hread (address, is_write) (List.mem_cons_self _ _)
    subst hw
    simp only [access_all] at h
    split at h
    · exact Option.noConfusion h
    · rename_i m1 h1
      exact ih m1 (fun p hp => hread p (List.mem_cons_of_mem _ hp)) h
        (read_access_clean _ _ _ _ _ hc h1)

/-- Witness of the amended C7: three reads on the write-through instruction
L1 of the initial hierarchy. -/
theorem read_only_cache_stays_clean_witness :
    all_clean (((access_all 1 initial_memory cache_ref.l1_instruction_cache
      [(0, 0), (8192, 0), (0, 0)]).getD initial_memory).get
        cache_ref.l1_instruction_cache) :=
  read_only_cache_stays_clean (32 * 1024) 512 4 0 initial_memory
    cache_ref.l1_instruction_cache (by decide) 1 [(0, 0), (8192, 0), (0, 0)] (by decide)
    _ (by decide)

/-- C8: for every cache other than L2 whose writeback flag is 0, in every
state (whatever the dirty flags of its blocks), a `cache_access` on it that
returns leaves `l2_cache` (counters and blocks) exactly as it was and records
no access but its own. -/
theorem write_through_leaves_l2 (fuel : Nat) (m m' : memory_t) (ref : cache_ref)
    (address : Nat) (is_write : Int) (hne : ref ≠ cache_ref.l2_cache)
    (hwb : (m.get ref).writeback = 0)
    (h : cache_access fuel m ref address is_write = some m') :
    m'.l2_cache = m.l2_cache ∧
    ∃ hit, m'.trace = m.trace ++ [⟨ref, address, is_write, hit⟩] := by
  have hl2 : ∀ (x : memory_t) (c : cache_t), (x.put ref c).l2_cache = x.l2_cache := by
    intro x c
    exact get_put_other x ref cache_ref.l2_cache c (fun e => hne e.symm)
  cases fuel with
  | zero => exact Option.noConfusion h
  | succ fuel =>
    obtain ⟨off, index, tag, set, hdec, hset, hcase⟩ := cache_access_inv _ _ _ _ _ _ h
    rcases hcase with ⟨i, block, set2, hscan, hblock, hupd, hm'⟩ |
      ⟨lru, victim, m2, set3, block3, set5, hscan, hlru, hvictim, hm2, hset3, hblock3, hupd, hm'⟩
    · subst hm'
      refine ⟨?_, true, ?_⟩
      · rw [hl2]; rfl
      · rw [trace_put, trace_log]
    · have hno : ¬ (victim.dirty ≠ 0 ∧ (m.get ref).writeback ≠ 0) := fun hc => hc.2 hwb
      rw [if_neg hno] at hm2
      simp only [Option.some.injEq] at hm2
      subst hm' hm2
      refine ⟨?_, false, ?_⟩
      · rw [hl2, hl2]; rfl
      · rw [trace_put, trace_put, trace_log]

/-- Witness of C8: a write to address 0 on the write-through instruction L1
of the initial hierarchy. -/
theorem write_through_leaves_l2_witness :
    ((cache_access 1 initial_memory cache_ref.l1_instruction_cache 0 1).getD
        initial_memory).l2_cache = initial_memory.l2_cache ∧
    ∃ hit, ((cache_access 1 initial_memory cache_ref.l1_instruction_cache 0 1).getD
        initial_memory).trace
      = initial_memory.trace ++ [⟨cache_ref.l1_instruction_cache, 0, 1, hit⟩] :=
  write_through_leaves_l2 1 initial_memory
    ((cache_access 1 initial_memory cache_ref.l1_instruction_cache 0 1).getD initial_memory)
    cache_ref.l1_instruction_cache 0 1 (by decide) (by decide) (by decide)

/-- C9, the code at the failing inputs: the second `memory_write(0)` hits in
the data L1 and still writes to L2; `memory_write(0x200)` after
`memory_write(0)` misses in the data L1 and issues no L2 access. -/
theorem memory_write_l2_access_follows_miss_count :
    (run 4 initial_memory [op_t.write 0, op_t.write 0]).map (fun m => m.trace)
      = some [⟨cache_ref.l1_data_cache, 0, 1, false⟩, ⟨cache_ref.l2_cache, 0, 1, false⟩,
              ⟨cache_ref.l1_data_cache, 0, 1, true⟩, ⟨cache_ref.l2_cache, 0, 1, true⟩] ∧
    (run 4 initial_memory [op_t.write 0, op_t.write 512]).map (fun m => m.trace)
      = some [⟨cache_ref.l1_data_cache, 0, 1, false⟩, ⟨cache_ref.l2_cache, 0, 1, false⟩,
              ⟨cache_ref.l1_data_cache, 512, 1, false⟩] := by
  decide

/-- C10, the code at the failing input: `memory_read(0)` after
`memory_write(0)` hits in the data L1 and still reads L2. -/
theorem memory_read_l2_access_after_write_miss :
    (run 4 initial_memory [op_t.write 0, op_t.read 0]).map (fun m => m.trace)
      = some [⟨cache_ref.l1_data_cache, 0, 1, false⟩, ⟨cache_ref.l2_cache, 0, 1, false⟩,
              ⟨cache_ref.l1_data_cache, 0, 0, true⟩, ⟨cache_ref.l2_cache, 0, 0, true⟩] ∧
    (run 4 initial_memory [op_t.write 0]).map (fun m => (m.l1_data_cache.miss, m.l1d_miss))
      = some (1, 0) := by
  decide

/-- C11: after `memory_init` and any sequence of `memory_fetch`,
`memory_read` and `memory_write` calls on 32-bit addresses, the static
`l1i_miss` equals `l1_instruction_cache.miss`, and a `memory_fetch(a)` returns
(fuel 4 suffices), performs exactly one access on the instruction L1, a read
at `a`, and issues a read on L2 at `a` if and only if that access was a miss;
whatever else it records is a synthetic write-back to L2. -/
theorem memory_fetch_reads_l2_iff_miss (ops : List op_t)
    (haddr : ∀ op ∈ ops, op.address < 4294967296) (address : Nat)
    (ha : address < 4294967296) (fuel : Nat) (m : memory_t)
    (hrun : run fuel initial_memory ops = some m) :
    m.l1i_miss = m.l1_instruction_cache.miss ∧
    (∀ f, 4 ≤ f → ∃ m', memory_fetch f m address = some m') ∧
    (∀ f m', memory_fetch f m address = some m' →
      ∃ hit,
        (hit = true ↔ ∃ i, cache_lookup m.l1_instruction_cache address = some (some i)) ∧
        (hit = true →
          m'.trace = m.trace ++ [⟨cache_ref.l1_instruction_cache, address, 0, true⟩]) ∧
        (hit = false → ∃ h2 nested,
          m'.trace = m.trace ++ ⟨cache_ref.l1_instruction_cache, address, 0, false⟩ ::
            ⟨cache_ref.l2_cache, address, 0, h2⟩ :: nested ∧
          ∀ e ∈ nested, e.target = cache_ref.l2_cache ∧ e.is_write = 1) ∧
        m'.l1i_miss = m'.l1_instruction_cache.miss) := by
  have hok := run_hierarchy_ok fuel ops haddr m hrun
  have hinv : m.l1i_miss = m.l1_instruction_cache.miss :=
    run_fetch_inv fuel ops initial_memory m initial_memory_ok.1 (by decide) hrun
  refine ⟨hinv, ?_, ?_⟩
  · intro f hf
    exact step_total f m (op_t.fetch address) hf ha hok
  · intro f m' h
    exact memory_fetch_spec f m m' address hok.1 hinv h

/-- Witness of C11: a fetch of address 0 after a fetch of 0x2000, a write and
a read. -/
theorem memory_fetch_reads_l2_iff_miss_witness :
    ((run 4 initial_memory [op_t.fetch 8192, op_t.write 4096, op_t.read 8192]).getD
        initial_memory).l1i_miss
      = ((run 4 initial_memory [op_t.fetch 8192, op_t.write 4096, op_t.read 8192]).getD
        initial_memory).l1_instruction_cache.miss ∧
    (∀ f, 4 ≤ f → ∃ m', memory_fetch f
      ((run 4 initial_memory [op_t.fetch 8192, op_t.write 4096, op_t.read 8192]).getD
        initial_memory) 0 = some m') ∧
    (∀ f m', memory_fetch f
      ((run 4 initial_memory [op_t.fetch 8192, op_t.write 4096, op_t.read 8192]).getD
        initial_memory) 0 = some m' →
      ∃ hit,
        (hit = true ↔ ∃ i, cache_lookup
          ((run 4 initial_memory [op_t.fetch 8192, op_t.write 4096, op_t.read 8192]).getD
            initial_memory).l1_instruction_cache 0 = some (some i)) ∧
        (hit = true →
          m'.trace = ((run 4 initial_memory
              [op_t.fetch 8192, op_t.write 4096, op_t.read 8192]).getD initial_memory).trace
            ++ [⟨cache_ref.l1_instruction_cache, 0, 0, true⟩]) ∧
        (hit = false → ∃ h2 nested,
          m'.trace = ((run 4 initial_memory
              [op_t.fetch 8192, op_t.write 4096, op_t.read 8192]).getD initial_memory).trace
            ++ ⟨cache_ref.l1_instruction_cache, 0, 0, false⟩ ::
              ⟨cache_ref.l2_cache, 0, 0, h2⟩ :: nested ∧
          ∀ e ∈ nested, e.target = cache_ref.l2_cache ∧ e.is_write = 1) ∧
        m'.l1i_miss = m'.l1_instruction_cache.miss) :=
  memory_fetch_reads_l2_iff_miss [op_t.fetch 8192, op_t.write 4096, op_t.read 8192]
    (by decide) 0 (by decide) 4 _ (by decide)

/-- C12, counterexample: in the hierarchy of `memory_init`, after
`memory_write(0x1000)` and `memory_read(0x2000)`, L2 has writeback 1 and a
dirty block of tag 1 in set 0; a read of address 0 on L2 misses, evicts it,
and issues a further access, a write to L2 at 0x8000: the one call raises the
total of the four L2 counters from 3 to 5. -/
theorem l2_write_back_is_not_dropped :
    memory_with_dirty_l2.l2_cache.writeback = 1 ∧
    memory_with_dirty_l2.l2_cache.sets[0]?.map (fun s => s.blocks[0]?)
      = some (some { tag := 1, valid := 1, dirty := 1, age := 0 }) ∧
    counter_total memory_with_dirty_l2.l2_cache = 3 ∧
    (cache_access 4 memory_with_dirty_l2 cache_ref.l2_cache 0 0).map
        (fun m => (m.trace.drop memory_with_dirty_l2.trace.length, counter_total m.l2_cache))
      = some ([⟨cache_ref.l2_cache, 0, 0, false⟩, ⟨cache_ref.l2_cache, 32768, 1, true⟩], 5) := by
  decide

/-- C12, amended: in the hierarchy of `memory_init` L2 has writeback 1 and
its write-backs are not dropped.  After any sequence of `memory_fetch`,
`memory_read` and `memory_write` calls on 32-bit addresses, a `cache_access`
on L2 that misses and whose victim, the block `find_lru_block_index` selects
in the addressed set, is dirty returns and issues at least one further cache
access; every access it nests is a synthetic write to L2 itself, and the call
raises the total of the four L2 counters by one for itself and one for each
nested access, hence by at least two. -/
theorem l2_dirty_eviction_is_not_dropped (ops : List op_t)
    (haddr : ∀ op ∈ ops, op.address < 4294967296) (fuel : Nat) (m : memory_t)
    (hrun : run fuel initial_memory ops = some m) (address : Nat)
    (ha : address < 4294967296) (w : Int) (off index tag lru : Nat) (set : set_t)
    (victim : block_t)
    (hdec : decode m.l2_cache address = some (off, index, tag))
    (hset : m.l2_cache.sets[index]? = some set)
    (hmiss : cache_lookup m.l2_cache address = some none)
    (hlru : find_lru_block_index set m.l2_cache.associativity = some lru)
    (hvictim : set.blocks[lru]? = some victim) (hd : victim.dirty ≠ 0) :
    m.l2_cache.writeback = 1 ∧
    (∃ f m', cache_access f m cache_ref.l2_cache address w = some m') ∧
    (∀ f m', cache_access f m cache_ref.l2_cache address w = some m' →
      ∃ nested, nested ≠ [] ∧
        m'.trace = m.trace ++ ⟨cache_ref.l2_cache, address, w, false⟩ :: nested ∧
        (∀ e ∈ nested, e.target = cache_ref.l2_cache ∧ e.is_write = 1) ∧
        counter_total m'.l2_cache = counter_total m.l2_cache + 1 + nested.length ∧
        counter_total m.l2_cache + 2 ≤ counter_total m'.l2_cache) := by
  have hok := run_hierarchy_ok fuel ops haddr m hrun
  have hacc := run_accounted fuel ops m hrun
  have hwb1 : m.l2_cache.writeback = 1 := (configured_writeback m hok.1).2.2
  refine ⟨hwb1, ?_, ?_⟩
  · obtain ⟨m', h⟩ := cache_access_total 4 m cache_ref.l2_cache address w hok.1 hok.2 ha
      (le_refl _)
    exact ⟨4, m', h⟩
  · intro f m' h
    have hwb : (m.get cache_ref.l2_cache).writeback ≠ 0 := by
      show m.l2_cache.writeback ≠ 0
      rw [hwb1]
      decide
    obtain ⟨hit2, nested2, htrace, hall⟩ := miss_dirty_nests f m m' cache_ref.l2_cache address w
      off index tag lru set victim hdec hset hmiss hlru hvictim hd hwb h
    have hall' : ∀ e ∈ (⟨cache_ref.l2_cache, write_back_address victim.tag index, 1, hit2⟩
        :: nested2 : List access_t), e.target = cache_ref.l2_cache ∧ e.is_write = 1 := by
      intro e he
      rcases List.mem_cons.mp he with heq | he
      · rw [heq]; exact ⟨rfl, rfl⟩
      · exact hall e he
    have hacc' := cache_access_accounted f m m' cache_ref.l2_cache address w hacc h
    have e1 := counter_total_accounted m hacc cache_ref.l2_cache
    have e2 := counter_total_accounted m' hacc' cache_ref.l2_cache
    change counter_total m.l2_cache = _ at e1
    change counter_total m'.l2_cache = _ at e2
    have hcount : counter_total m'.l2_cache = counter_total m.l2_cache + 1
        + ((⟨cache_ref.l2_cache, write_back_address victim.tag index, 1, hit2⟩
            :: nested2 : List access_t).length : Int) := by
      rw [e1, e2, htrace, accesses_to_append]
      · simp only [List.length_cons]
        push_cast
        ring
      · intro e he
        rcases List.mem_cons.mp he with heq | he
        · rw [heq]
        · exact (hall' e he).1
    refine ⟨_, List.cons_ne_nil _ _, htrace, hall', hcount, ?_⟩
    rw [hcount]
    simp only [List.length_cons]
    push_cast
    omega

/-- Witness of the amended C12: the read of address 0 on L2 in the state of
the counterexample. -/
theorem l2_dirty_eviction_is_not_dropped_witness :
    memory_with_dirty_l2.l2_cache.writeback = 1 ∧
    (∃ f m', cache_access f memory_with_dirty_l2 cache_ref.l2_cache 0 0 = some m') ∧
    (∀ f m', cache_access f memory_with_dirty_l2 cache_ref.l2_cache 0 0 = some m' →
      ∃ nested, nested ≠ [] ∧
        m'.trace = memory_with_dirty_l2.trace
          ++ ⟨cache_ref.l2_cache, 0, 0, false⟩ :: nested ∧
        (∀ e ∈ nested, e.target = cache_ref.l2_cache ∧ e.is_write = 1) ∧
        counter_total m'.l2_cache
          = counter_total memory_with_dirty_l2.l2_cache + 1 + nested.length ∧
        counter_total memory_with_dirty_l2.l2_cache + 2 ≤ counter_total m'.l2_cache) :=
  l2_dirty_eviction_is_not_dropped [op_t.write 4096, op_t.read 8192] (by decide) 4
    memory_with_dirty_l2 (by decide) 0 (by decide) 0 0 0 0 0
    { blocks := [{ tag := 1, valid := 1, dirty := 1, age := 0 }, block_init, block_init,
                 block_init, block_init, block_init, block_init, block_init] }
    { tag := 1, valid := 1, dirty := 1, age := 0 } (by decide) (by decide) (by decide)
    (by decide) (by decide) (by decide)

/-- C13: in every state reachable from `cache_init` by `cache_access` calls,
in every set of every cache, two valid blocks with the same tag are the same
block: at most one block of a set is valid with a given tag. -/
theorem no_duplicate_residency (m : memory_t) (hr : reachable m) (ref : cache_ref)
    (set : set_t) (hs : set ∈ (m.get ref).sets) (tag i j : Nat) (bi bj : block_t)
    (hi : set.blocks[i]? = some bi) (hj : set.blocks[j]? = some bj)
    (hvi : bi.valid ≠ 0) (_hti : bi.tag = tag) (hvj : bj.valid ≠ 0) (_htj : bj.tag = tag) :
    i = j := by
  have htail := (reachable_slot0 m hr ref set hs).1
  rw [valid_slot0 set.blocks htail i bi hi hvi, valid_slot0 set.blocks htail j bj hj hvj]

/-- Witness of C13: set 0 of the instruction L1 after one read of address 0;
its only valid block is block 0. -/
theorem no_duplicate_residency_witness :
    reachable memory_after_read ∧
    ({ blocks := [{ tag := 0, valid := 1, dirty := 0, age := 0 }, block_init, block_init,
                  block_init] } : set_t)
      ∈ (memory_after_read.get cache_ref.l1_instruction_cache).sets ∧
    (0 : Nat) = 0 :=
  ⟨reachable_memory_after_read, by decide,
   no_duplicate_residency memory_after_read reachable_memory_after_read
     cache_ref.l1_instruction_cache
     { blocks := [{ tag := 0, valid := 1, dirty := 0, age := 0 }, block_init, block_init,
                  block_init] }
     (by decide) 0 0 0 { tag := 0, valid := 1, dirty := 0, age := 0 }
     { tag := 0, valid := 1, dirty := 0, age := 0 } (by decide) (by decide) (by decide)
     (by decide) (by decide) (by decide)⟩

/-- C14, counterexample: on the cache that `cache_init` makes with cachesize
2, blocksize 1 and associativity 1, the read accesses to the addresses 0, 2, 0
are a miss, a miss and a miss: the third access does not hit. -/
theorem revisit_after_conflict_misses :
    ((lone_cache 2 1 1 0).bind (fun m =>
        access_all 1 m cache_ref.l1_instruction_cache [(0, 0), (2, 0), (0, 0)])).map
        (fun m => m.trace.map (fun e => (e.address, e.hit)))
      = some [(0, false), (2, false), (0, false)] := by
  decide

/-- C14, amended: that cache has 2 sets; address 0 decodes to set 0 with tag
0 and address 2 to set 0 with tag 1, so the read accesses to 0, 2, 0 are three
misses (`read_miss = 3`, `read_hit = 0`), each access evicting the other tag;
the read accesses to 0, 1, 0 are a miss, a miss and a hit (`read_miss = 2`,
`read_hit = 1`). -/
theorem direct_mapped_conflict_trace :
    (cache_init 2 1 1 0).map (fun c => (c.numsets, decode c 0, decode c 2))
      = some (2, some (0, 0, 0), some (0, 0, 1)) ∧
    ((lone_cache 2 1 1 0).bind (fun m =>
        access_all 1 m cache_ref.l1_instruction_cache [(0, 0), (2, 0), (0, 0)])).map
        (fun m => (m.l1_instruction_cache.read_miss, m.l1_instruction_cache.read_hit))
      = some (3, 0) ∧
    ((lone_cache 2 1 1 0).bind (fun m =>
        access_all 1 m cache_ref.l1_instruction_cache [(0, 0), (1, 0), (0, 0)])).map
        (fun m => (m.l1_instruction_cache.read_miss, m.l1_instruction_cache.read_hit,
          m.trace.map (fun e => (e.address, e.hit))))
      = some (2, 1, [(0, false), (1, false), (0, true)]) :=
  ⟨by decide, by decide, by decide⟩

/-- C15: for every cache with non-negative counters, each of
`calculate_combined_hit_ratio`, `calculate_read_hit_ratio` and
`calculate_write_hit_ratio` returns without dividing by zero; it returns 0
when the access total of its kind is zero and the quotient hits / (hits +
misses) of its kind otherwise, a value between 0 and 1 (the quotient of
`double`s is taken as the exact rational quotient). -/
theorem hit_ratios_never_divide_by_zero (c : cache_t) (h1 : 0 ≤ c.read_hit)
    (h2 : 0 ≤ c.read_miss) (h3 : 0 ≤ c.write_hit) (h4 : 0 ≤ c.write_miss) :
    (∃ q, calculate_combined_hit_ratio c = some q ∧ 0 ≤ q ∧ q ≤ 1 ∧
      (c.read_hit + c.write_hit + c.read_miss + c.write_miss = 0 → q = 0) ∧
      (c.read_hit + c.write_hit + c.read_miss + c.write_miss ≠ 0 →
        q = ((c.read_hit + c.write_hit : Int) : ℚ)
          / ((c.read_hit + c.write_hit + c.read_miss + c.write_miss : Int) : ℚ))) ∧
    (∃ q, calculate_read_hit_ratio c = some q ∧ 0 ≤ q ∧ q ≤ 1 ∧
      (c.read_hit + c.read_miss = 0 → q = 0) ∧
      (c.read_hit + c.read_miss ≠ 0 →
        q = (c.read_hit : ℚ) / ((c.read_hit + c.read_miss : Int) : ℚ))) ∧
    (∃ q, calculate_write_hit_ratio c = some q ∧ 0 ≤ q ∧ q ≤ 1 ∧
      (c.write_hit + c.write_miss = 0 → q = 0) ∧
      (c.write_hit + c.write_miss ≠ 0 →
        q = (c.write_hit : ℚ) / ((c.write_hit + c.write_miss : Int) : ℚ))) :=
  ⟨ratio_guard (c.read_hit + c.write_hit)
      (c.read_hit + c.write_hit + c.read_miss + c.write_miss) (by omega) (by omega),
   ratio_guard c.read_hit (c.read_hit + c.read_miss) h1 (by omega),
   ratio_guard c.write_hit (c.write_hit + c.write_miss) h3 (by omega)⟩

/-- Witness of C15: the data L1 after `memory_write(0x1000)` and
`memory_read(0x2000)`, with one read miss and one write miss. -/
theorem hit_ratios_never_divide_by_zero_witness :
    (∃ q, calculate_combined_hit_ratio memory_with_dirty_l2.l1_data_cache = some q ∧
      0 ≤ q ∧ q ≤ 1 ∧
      (memory_with_dirty_l2.l1_data_cache.read_hit + memory_with_dirty_l2.l1_data_cache.write_hit
        + memory_with_dirty_l2.l1_data_cache.read_miss
        + memory_with_dirty_l2.l1_data_cache.write_miss = 0 → q = 0) ∧
      (memory_with_dirty_l2.l1_data_cache.read_hit + memory_with_dirty_l2.l1_data_cache.write_hit
        + memory_with_dirty_l2.l1_data_cache.read_miss
        + memory_with_dirty_l2.l1_data_cache.write_miss ≠ 0 →
        q = ((memory_with_dirty_l2.l1_data_cache.read_hit
              + memory_with_dirty_l2.l1_data_cache.write_hit : Int) : ℚ)
          / ((memory_with_dirty_l2.l1_data_cache.read_hit
              + memory_with_dirty_l2.l1_data_cache.write_hit
              + memory_with_dirty_l2.l1_data_cache.read_miss
              + memory_with_dirty_l2.l1_data_cache.write_miss : Int) : ℚ))) ∧
    (∃ q, calculate_read_hit_ratio memory_with_dirty_l2.l1_data_cache = some q ∧
      0 ≤ q ∧ q ≤ 1 ∧
      (memory_with_dirty_l2.l1_data_cache.read_hit
        + memory_with_dirty_l2.l1_data_cache.read_miss = 0 → q = 0) ∧
      (memory_with_dirty_l2.l1_data_cache.read_hit
        + memory_with_dirty_l2.l1_data_cache.read_miss ≠ 0 →
        q = (memory_with_dirty_l2.l1_data_cache.read_hit : ℚ)
          / ((memory_with_dirty_l2.l1_data_cache.read_hit
              + memory_with_dirty_l2.l1_data_cache.read_miss : Int) : ℚ))) ∧
    (∃ q, calculate_write_hit_ratio memory_with_dirty_l2.l1_data_cache = some q ∧
      0 ≤ q ∧ q ≤ 1 ∧
      (memory_with_dirty_l2.l1_data_cache.write_hit
        + memory_with_dirty_l2.l1_data_cache.write_miss = 0 → q = 0) ∧
      (memory_with_dirty_l2.l1_data_cache.write_hit
        + memory_with_dirty_l2.l1_data_cache.write_miss ≠ 0 →
        q = (memory_with_dirty_l2.l1_data_cache.write_hit : ℚ)
          / ((memory_with_dirty_l2.l1_data_cache.write_hit
              + memory_with_dirty_l2.l1_data_cache.write_miss : Int) : ℚ))) :=
  hit_ratios_never_divide_by_zero memory_with_dirty_l2.l1_data_cache (by decide) (by decide)
    (by decide) (by decide)

/-- C16, counterexample: `cache_init` with cachesize 3, blocksize 1 and
associativity 1 returns a cache of 3 sets, and with cachesize 7, blocksize 2
and associativity 1 a cache of 3 sets, the truncated quotient of 7 by 2:
neither geometry is rejected. -/
theorem cache_init_accepts_any_quotient :
    (cache_init 3 1 1 0).map (fun c => (c.numsets, c.sets.length)) = some (3, 3) ∧
    (cache_init 7 2 1 0).map (fun c => (c.numsets, c.sets.length)) = some (3, 3) := by
  decide

/-- C16, amended: `cache_init` makes no check of the geometry.  For every
cachesize, blocksize > 0 and associativity > 0 with associativity * blocksize
at most cachesize it returns a cache whose numsets is the truncated quotient
of cachesize by associativity * blocksize, a power of two or not, with the
parameters stored as given, zeroed counters, and numsets sets of
associativity blocks each as `block_init` leaves them. -/
theorem cache_init_truncates_without_check (cachesize blocksize associativity writeback : Int)
    (hb : 0 < blocksize) (ha : 0 < associativity)
    (hs : associativity * blocksize ≤ cachesize) :
    ∃ c, cache_init cachesize blocksize associativity writeback = some c ∧
      1 ≤ c.numsets ∧
      c.numsets * (associativity * blocksize) ≤ cachesize ∧
      cachesize < (c.numsets + 1) * (associativity * blocksize) ∧
      c.blocksize = blocksize ∧ c.cachesize = cachesize ∧
      c.associativity = associativity ∧ c.writeback = writeback ∧
      c.hit = 0 ∧ c.miss = 0 ∧ c.read_hit = 0 ∧ c.read_miss = 0 ∧
      c.write_hit = 0 ∧ c.write_miss = 0 ∧
      c.sets.length = c.numsets.toNat ∧
      ∀ s ∈ c.sets, s.blocks = List.replicate associativity.toNat block_init := by
  have hpos : 0 < associativity * blocksize := Int.mul_pos ha hb
  have hne : ¬ (associativity * blocksize = 0) := by omega
  have hcs : 0 ≤ cachesize := by omega
  have hdiv : Int.tdiv cachesize (associativity * blocksize)
      = cachesize / (associativity * blocksize) :=
    Int.tdiv_eq_ediv hcs (le_of_lt hpos)
  refine ⟨_, by unfold cache_init; rw [if_neg hne], ?_, ?_, ?_, rfl, rfl, rfl, rfl, rfl, rfl,
    rfl, rfl, rfl, rfl, ?_, ?_⟩
  · show 1 ≤ Int.tdiv cachesize (associativity * blocksize)
    rw [hdiv]
    exact (Int.le_ediv_iff_mul_le hpos).mpr (by omega)
  · show Int.tdiv cachesize (associativity * blocksize) * (associativity * blocksize) ≤ cachesize
    rw [hdiv]
    exact Int.ediv_mul_le cachesize (by omega)
  · show cachesize < (Int.tdiv cachesize (associativity * blocksize) + 1)
      * (associativity * blocksize)
    rw [hdiv]
    exact Int.lt_ediv_add_one_mul_self cachesize hpos
  · exact List.length_replicate _ _
  · intro s hs'
    have := List.eq_of_mem_replicate hs'
    rw [this]
    rfl

/-- Witness of the amended C16: cachesize 7, blocksize 2, associativity 1. -/
theorem cache_init_truncates_without_check_witness :
    ∃ c, cache_init 7 2 1 0 = some c ∧
      1 ≤ c.numsets ∧
      c.numsets * (1 * 2) ≤ 7 ∧
      7 < (c.numsets + 1) * (1 * 2) ∧
      c.blocksize = 2 ∧ c.cachesize = 7 ∧
      c.associativity = 1 ∧ c.writeback = 0 ∧
      c.hit = 0 ∧ c.miss = 0 ∧ c.read_hit = 0 ∧ c.read_miss = 0 ∧
      c.write_hit = 0 ∧ c.write_miss = 0 ∧
      c.sets.length = c.numsets.toNat ∧
      ∀ s ∈ c.sets, s.blocks = List.replicate (1 : Int).toNat block_init :=
  cache_init_truncates_without_check 7 2 1 0 (by decide) (by decide) (by decide)

/-- C17: for every associativity `n >= 1` and every set that holds at least
`n` blocks, `find_lru_block_index` returns an index `i < n` whose block has
the maximal age among the blocks `0 .. n - 1` and is the first such block:
every block before it is strictly younger. -/
theorem find_lru_block_index_first_max (set : set_t) (n : Nat) (hn : 1 ≤ n)
    (hlen : n ≤ set.blocks.length) :
    ∃ i bi, find_lru_block_index set (n : Int) = some i ∧ i < n ∧
      set.blocks[i]? = some bi ∧
      (∀ j bj, j < n → set.blocks[j]? = some bj → bj.age ≤ bi.age) ∧
      (∀ j bj, j < i → set.blocks[j]? = some bj → bj.age < bi.age) := by
  have h0 : 0 < set.blocks.length := by omega
  have hb0 : set.blocks[0]? = some set.blocks[0] := List.getElem?_eq_getElem h0
  generalize set.blocks[0] = b0 at hb0
  have hcount : ((n : Int) - 1).toNat = n - 1 := by omega
  obtain ⟨r, br, h1, h2, h3, h4, h5⟩ := find_lru_loop_spec set.blocks (n - 1) 1 0 b0.age
    (by omega) (by omega) ⟨b0, hb0, rfl⟩
    (fun j bj hj hbj => by
      have : j = 0 := by omega
      subst this
      rw [hb0] at hbj
      simp only [Option.some.injEq] at hbj
      rw [hbj])
    (fun j bj hj _ => by omega)
  refine ⟨r, br, ?_, by omega, h3, fun j bj hj => h4 j bj (by omega), h5⟩
  unfold find_lru_block_index
  simp only [hb0, hcount]
  exact h1

/-- Witness of C17: ages 2, 5, 5, 1 in a 4-way set; the first block of age 5
is block 1. -/
theorem find_lru_block_index_first_max_witness :
    ∃ i bi, find_lru_block_index
        { blocks := [{ tag := 7, valid := 1, dirty := 0, age := 2 },
                     { tag := 8, valid := 1, dirty := 0, age := 5 },
                     { tag := 9, valid := 1, dirty := 1, age := 5 },
                     { tag := 3, valid := 1, dirty := 0, age := 1 }] } ((4 : Nat) : Int)
        = some i ∧ i < 4 ∧
      ({ blocks := [{ tag := 7, valid := 1, dirty := 0, age := 2 },
                     { tag := 8, valid := 1, dirty := 0, age := 5 },
                     { tag := 9, valid := 1, dirty := 1, age := 5 },
                     { tag := 3, valid := 1, dirty := 0, age := 1 }] } : set_t).blocks[i]?
        = some bi ∧
      (∀ j bj, j < 4 →
        ({ blocks := [{ tag := 7, valid := 1, dirty := 0, age := 2 },
                     { tag := 8, valid := 1, dirty := 0, age := 5 },
                     { tag := 9, valid := 1, dirty := 1, age := 5 },
                     { tag := 3, valid := 1, dirty := 0, age := 1 }] } : set_t).blocks[j]?
          = some bj → bj.age ≤ bi.age) ∧
      (∀ j bj, j < i →
        ({ blocks := [{ tag := 7, valid := 1, dirty := 0, age := 2 },
                     { tag := 8, valid := 1, dirty := 0, age := 5 },
                     { tag := 9, valid := 1, dirty := 1, age := 5 },
                     { tag := 3, valid := 1, dirty := 0, age := 1 }] } : set_t).blocks[j]?
          = some bj → bj.age < bi.age) :=
  find_lru_block_index_first_max _ 4 (by decide) (by decide)

/-- C18: for every associativity `n`, every set that holds at least `n`
blocks and every `accessed_index = k < n`, `update_block_ages` returns; after
it block `k` has age 0, every other valid block among the first `n` has its
age increased by exactly one, every other block keeps its age, and the tag,
valid and dirty fields of every block, and the number of blocks, are
unchanged. -/
theorem update_block_ages_effect (set : set_t) (n k : Nat) (hk : k < n)
    (hlen : n ≤ set.blocks.length) :
    ∃ set', update_block_ages set (n : Int) k = some set' ∧
      set'.blocks.length = set.blocks.length ∧
      ∀ j b, set.blocks[j]? = some b →
        ∃ b', set'.blocks[j]? = some b' ∧
          b'.tag = b.tag ∧ b'.valid = b.valid ∧ b'.dirty = b.dirty ∧
          b'.age = (if j = k then 0 else if j < n ∧ b.valid ≠ 0 then b.age + 1 else b.age) := by
  obtain ⟨set', h⟩ := update_block_ages_total set (n : Int) k
    (by rw [Int.toNat_ofNat]; exact hlen) (by omega)
  refine ⟨set', h, update_block_ages_length _ _ _ _ h, ?_⟩
  intro j b hb
  have hg := update_block_ages_get set set' (n : Int) k h j b hb
  rw [Int.toNat_ofNat] at hg
  refine ⟨_, hg, ?_⟩
  by_cases hjk : j = k
  · rw [if_pos hjk, if_pos hjk]
    exact ⟨rfl, rfl, rfl, rfl⟩
  · rw [if_neg hjk, if_neg hjk]
    by_cases hc : j < n ∧ b.valid ≠ 0
    · rw [if_pos hc, if_pos hc]
      exact ⟨rfl, rfl, rfl, rfl⟩
    · rw [if_neg hc, if_neg hc]
      exact ⟨rfl, rfl, rfl, rfl⟩

/-- Witness of C18: a 3-way set with a valid, an invalid and a valid block,
block 2 accessed. -/
theorem update_block_ages_effect_witness :
    ∃ set', update_block_ages
        { blocks := [{ tag := 7, valid := 1, dirty := 1, age := 4 },
                     { tag := 0, valid := 0, dirty := 0, age := -1 },
                     { tag := 9, valid := 1, dirty := 0, age := 2 }] } ((3 : Nat) : Int) 2
        = some set' ∧
      set'.blocks.length
        = ({ blocks := [{ tag := 7, valid := 1, dirty := 1, age := 4 },
                     { tag := 0, valid := 0, dirty := 0, age := -1 },
                     { tag := 9, valid := 1, dirty := 0, age := 2 }] } : set_t).blocks.length ∧
      ∀ j b, ({ blocks := [{ tag := 7, valid := 1, dirty := 1, age := 4 },
                     { tag := 0, valid := 0, dirty := 0, age := -1 },
                     { tag := 9, valid := 1, dirty := 0, age := 2 }] } : set_t).blocks[j]?
          = some b →
        ∃ b', set'.blocks[j]? = some b' ∧
          b'.tag = b.tag ∧ b'.valid = b.valid ∧ b'.dirty = b.dirty ∧
          b'.age = (if j = 2 then 0 else if j < 3 ∧ b.valid ≠ 0 then b.age + 1 else b.age) :=
  update_block_ages_effect _ 3 2 (by decide) (by decide)

/-- C19: in every state reachable from `cache_init` by `cache_access` calls,
for every cache (whatever its associativity) and every set of it, every block
at index 1 or more is still as `block_init` left it (tag 0, valid 0, dirty 0,
age -1), so a valid block can only be block 0 and the set holds at most one
resident tag, and `find_lru_block_index` returns 0 whenever it returns, so
every miss installs into block 0. -/
theorem only_block_zero_is_used (m : memory_t) (hr : reachable m) (ref : cache_ref)
    (set : set_t) (hs : set ∈ (m.get ref).sets) :
    (∀ (k : Nat) (b : block_t), 1 ≤ k → set.blocks[k]? = some b →
      b = { tag := 0, valid := 0, dirty := 0, age := -1 }) ∧
    (∀ (i : Nat) (b : block_t), set.blocks[i]? = some b → b.valid ≠ 0 → i = 0) ∧
    (∀ lru, find_lru_block_index set (m.get ref).associativity = some lru → lru = 0) := by
  have h := reachable_slot0 m hr ref set hs
  exact ⟨h.1, fun i b hb hv => valid_slot0 set.blocks h.1 i b hb hv,
    fun lru hl => find_lru_slot0 set _ lru h hl⟩

/-- Witness of C19: set 0 of the 4-way instruction L1 after one read of
address 0. -/
theorem only_block_zero_is_used_witness :
    (∀ (k : Nat) (b : block_t), 1 ≤ k →
      ({ blocks := [{ tag := 0, valid := 1, dirty := 0, age := 0 }, block_init, block_init,
                    block_init] } : set_t).blocks[k]? = some b →
      b = { tag := 0, valid := 0, dirty := 0, age := -1 }) ∧
    (∀ (i : Nat) (b : block_t),
      ({ blocks := [{ tag := 0, valid := 1, dirty := 0, age := 0 }, block_init, block_init,
                    block_init] } : set_t).blocks[i]? = some b → b.valid ≠ 0 → i = 0) ∧
    (∀ lru, find_lru_block_index
        { blocks := [{ tag := 0, valid := 1, dirty := 0, age := 0 }, block_init, block_init,
                     block_init] }
        (memory_after_read.get cache_ref.l1_instruction_cache).associativity = some lru →
      lru = 0) :=
  only_block_zero_is_used memory_after_read reachable_memory_after_read
    cache_ref.l1_instruction_cache
    { blocks := [{ tag := 0, valid := 1, dirty := 0, age := 0 }, block_init, block_init,
                 block_init] }
    (by decide)

/-- C20: in the hierarchy of `memory_init`, after any sequence of
`memory_fetch`, `memory_read` and `memory_write` calls on 32-bit addresses:
every dirty block of every cache is valid; every further call returns
(fuel 4 suffices); every `cache_access` on a 32-bit address returns within
fuel 4, that is with at most 3 nested accesses, all of them synthetic writes
to L2; the synthetic write for a victim of set `index < 64` addresses set
`index / 8` of L2; and when an access to set 0 of L2 misses and evicts a dirty
block, the synthetic write hits that block and nests no further. -/
theorem write_back_recursion_bounded (ops : List op_t)
    (haddr : ∀ op ∈ ops, op.address < 4294967296) (fuel : Nat) (m : memory_t)
    (hrun : run fuel initial_memory ops = some m) :
    (∀ ref : cache_ref, ∀ s ∈ (m.get ref).sets, ∀ b ∈ s.blocks,
      b.dirty ≠ 0 → b.valid ≠ 0) ∧
    (∀ op : op_t, op.address < 4294967296 → ∀ f, 4 ≤ f → ∃ m', step f m op = some m') ∧
    (∀ (ref : cache_ref) (address : Nat) (w : Int), address < 4294967296 →
      ∃ m' hit nested, cache_access 4 m ref address w = some m' ∧
        m'.trace = m.trace ++ ⟨ref, address, w, hit⟩ :: nested ∧
        nested.length ≤ 3 ∧
        ∀ e ∈ nested, e.target = cache_ref.l2_cache ∧ e.is_write = 1) ∧
    (∀ tag index : Nat, index < 64 →
      decode m.l2_cache (write_back_address tag index)
        = some (write_back_address tag index &&& 511, index / 8, tag % 131072)) ∧
    (∀ (address : Nat) (w : Int) (set : set_t) (victim : block_t),
      address < 4294967296 → address / 512 % 64 = 0 →
      m.l2_cache.sets[0]? = some set → cache_lookup m.l2_cache address = some none →
      set.blocks[0]? = some victim → victim.dirty ≠ 0 →
      ∃ m', cache_access 4 m cache_ref.l2_cache address w = some m' ∧
        m'.trace = m.trace ++ [⟨cache_ref.l2_cache, address, w, false⟩,
          ⟨cache_ref.l2_cache, write_back_address victim.tag 0, 1, true⟩]) := by
  have hok := run_hierarchy_ok fuel ops haddr m hrun
  have hreach := run_reachable fuel ops m hrun
  refine ⟨reachable_dirty_valid m hreach, ?_, ?_, ?_, ?_⟩
  · intro op hop f hf
    exact step_total f m op hf hop hok
  · intro ref address w ha
    obtain ⟨m', h⟩ := cache_access_total 4 m ref address w hok.1 hok.2 ha (le_refl _)
    obtain ⟨hit, nested, ht, hall, hlen, _, _, _, _⟩ := cache_access_trace _ _ _ _ _ _ h
    exact ⟨m', hit, nested, h, ht, by omega, hall⟩
  · intro tag index hi
    exact l2_decode_write_back m hok.1 tag index hi
  · intro address w set victim ha h0 hset hmiss hvictim hd
    obtain ⟨m', h⟩ := cache_access_total 4 m cache_ref.l2_cache address w hok.1 hok.2 ha
      (le_refl _)
    have hset' : m.l2_cache.sets[address / 512 % 64]? = some set := by rw [h0]; exact hset
    obtain ⟨m2, hm2, htr⟩ := l2_miss_dirty_step 3 m m' address w hok.1
      (reachable_slot0 m hreach cache_ref.l2_cache) set victim hset' hmiss hvictim hd h
    rw [h0] at hm2
    refine ⟨m', h, ?_⟩
    rw [htr]
    exact l2_set0_write_back_hits 3 m m2 address w hok.1 hok.2 set victim hset hvictim hd hm2

/-- Witness of C20: the state after a write, a read that evicts the written
block, and a fetch. -/
theorem write_back_recursion_bounded_witness :
    (∀ ref : cache_ref, ∀ s ∈ (memory_with_dirty_l2.get ref).sets, ∀ b ∈ s.blocks,
      b.dirty ≠ 0 → b.valid ≠ 0) ∧
    (∀ op : op_t, op.address < 4294967296 → ∀ f, 4 ≤ f →
      ∃ m', step f memory_with_dirty_l2 op = some m') ∧
    (∀ (ref : cache_ref) (address : Nat) (w : Int), address < 4294967296 →
      ∃ m' hit nested, cache_access 4 memory_with_dirty_l2 ref address w = some m' ∧
        m'.trace = memory_with_dirty_l2.trace ++ ⟨ref, address, w, hit⟩ :: nested ∧
        nested.length ≤ 3 ∧
        ∀ e ∈ nested, e.target = cache_ref.l2_cache ∧ e.is_write = 1) ∧
    (∀ tag index : Nat, index < 64 →
      decode memory_with_dirty_l2.l2_cache (write_back_address tag index)
        = some (write_back_address tag index &&& 511, index / 8, tag % 131072)) ∧
    (∀ (address : Nat) (w : Int) (set : set_t) (victim : block_t),
      address < 4294967296 → address / 512 % 64 = 0 →
      memory_with_dirty_l2.l2_cache.sets[0]? = some set →
      cache_lookup memory_with_dirty_l2.l2_cache address = some none →
      set.blocks[0]? = some victim → victim.dirty ≠ 0 →
      ∃ m', cache_access 4 memory_with_dirty_l2 cache_ref.l2_cache address w = some m' ∧
        m'.trace = memory_with_dirty_l2.trace ++ [⟨cache_ref.l2_cache, address, w, false⟩,
          ⟨cache_ref.l2_cache, write_back_address victim.tag 0, 1, true⟩]) :=
  write_back_recursion_bounded [op_t.write 4096, op_t.read 8192] (by decide) 4
    memory_with_dirty_l2 (by decide)

end CacheSim
